import Mathlib

/-!
Verification of the docs-sidebar core of the woodwork-website repository.

The sidebar component (src/client/src/components/DocsSidebar.tsx) keeps an
expansion state, a JavaScript object mapping folder path strings to booleans.
We embed JS strings as lists of characters, so that the JS string operations
used by the component (split on a slash, concatenation, startsWith, prefix
removal) become ordinary list functions that can be reasoned about directly.
-/

/-- A JS string, modelled as its list of characters. -/
abbrev Str := List Char

/-- Converts a Lean string literal to the character-list model. -/
def str (s : String) : Str := s.toList

/-- Helper for splitSlash: prepends a character to the first chunk. -/
def consHead (c : Char) : List Str → List Str
  | [] => [[c]]
  | h :: t => (c :: h) :: t

/-- JS str.split('/'): splits a string on the slash character.
Like in JS, the empty string splits to a single empty chunk. -/
def splitSlash : Str → List Str
  | [] => [[]]
  | c :: rest => if c = '/' then [] :: splitSlash rest else consHead c (splitSlash rest)

/-- Depth of a path, as computed in toggleFolder:
path.split('/').length. -/
def level (p : Str) : Nat := (splitSlash p).length

/-- One step of the path-building reduce in the sidebar effect:
acc ? acc + "/" + part : part  (the empty string is falsy in JS). -/
def joinStep (acc part : Str) : Str := if acc = [] then part else acc ++ '/' :: part

/-- The expansion state: the entries of the openFolders record, in insertion
order, each a path string paired with its boolean value. -/
abbrev OpenFolders := List (Str × Bool)

/-- JS truthiness of a record access that may be undefined. -/
def truthy : Option Bool → Bool
  | some b => b
  | none => false

/-- JS record access prev[path]: the value stored at the first entry whose
key equals the path, if any. -/
def lookupKey (p : Str) : OpenFolders → Option Bool
  | [] => none
  | (k, v) :: rest => if k = p then some v else lookupKey p rest

/-- Whether a path is currently open: !!openFolders[path]. -/
def isOpenIn (s : OpenFolders) (p : Str) : Bool := truthy (lookupKey p s)

/-- toggleFolder from DocsSidebar.tsx: keeps the entries whose depth differs
from the toggled path's depth, then re-adds the path as open unless it was
previously open. -/
def toggleFolder (path : Str) (prev : OpenFolders) : OpenFolders :=
  let lvl := level path
  let kept := prev.filter (fun e => level e.1 != lvl)
  if truthy (lookupKey path prev) then kept else kept ++ [(path, true)]

/-- The reduce in the sidebar's route effect: walks the slug segments
(except the last) and records each accumulated path as open. -/
def initPathsGo (acc : Str) : List Str → OpenFolders
  | [] => []
  | part :: rest =>
      let np := joinStep acc part
      (np, true) :: initPathsGo np rest

/-- The slug segments of a docs pathname:
pathname.replace('/docs/', '').split('/') for a pathname that starts
with "/docs/" (the replace removes that six-character prefix). -/
def routeSlugParts (pathname : Str) : List Str := splitSlash (pathname.drop 6)

/-- The route-change effect of DocsSidebar: if the pathname is absent or does
not start with "/docs/", it returns early leaving the state unchanged;
otherwise it replaces the state with the ancestor paths of the slug. -/
def routeObserve (pathname : Option Str) (s : OpenFolders) : OpenFolders :=
  match pathname with
  | none => s
  | some pn =>
      if (str "/docs/").isPrefixOf pn then
        initPathsGo [] (routeSlugParts pn).dropLast
      else s

/-- An active document route follows the slug convention: every segment of
the slug is non-empty (spec, external interfaces: the active-route contract
uses the same separator convention as catalog slugs). -/
def wellFormedRoute : Option Str → Prop
  | none => True
  | some pn => (str "/docs/").isPrefixOf pn = true → ∀ part ∈ routeSlugParts pn, part ≠ []

/-- Expansion states reachable by the sidebar: the empty initial state,
route-change observations of well-formed routes, and toggle transitions. -/
inductive Reachable : OpenFolders → Prop
  | empty : Reachable []
  | route (pn : Option Str) (s : OpenFolders) (hw : wellFormedRoute pn)
      (hs : Reachable s) : Reachable (routeObserve pn s)
  | toggle (p : Str) (s : OpenFolders) (hs : Reachable s) : Reachable (toggleFolder p s)

/-- At most one folder path is open at any given depth level. -/
def AtMostOnePerLevel (s : OpenFolders) : Prop :=
  ∀ p q : Str, isOpenIn s p = true → isOpenIn s q = true → level p = level q → p = q

/-- Depth contributed by the accumulator of the path-building reduce:
the empty accumulator contributes nothing. -/
def baseLevel (acc : Str) : Nat := if acc = [] then 0 else level acc

/-! ### The ancestor-path characterization of the route effect (C2) -/

/-- Joins a list of segments with slashes (spec-side description of a path:
the slash-joined chain of segment names). -/
def joinSegs : List Str → Str
  | [] => []
  | [s] => s
  | s :: rest => s ++ '/' :: joinSegs rest

/-- The proper, non-empty prefixes of a slug's segment sequence, joined into
path strings: the ancestor chain of folder paths of the spec. -/
def properAncestorPaths (segs : List Str) : List Str :=
  ((List.range segs.length).drop 1).map (fun i => joinSegs (segs.take i))

/-! ### The document tree consumed by the sidebar -/

/-- A catalog document: slug, title and relative ordering index
(the Doc interface of DocsSidebar.tsx). -/
structure Doc where
  slug : Str
  title : Str
  index : Int
deriving DecidableEq

/-- The DocTreeNode interface of DocsSidebar.tsx: an entry of the nested
groupedDocs record is either a nested record of children (a folder) or an
object wrapping a single document (a leaf, the record with a double
underscore doc field). -/
inductive DocTreeNode where
  | leaf (doc : Doc)
  | folder (children : List (Str × DocTreeNode))

mutual
/-- Decidable equality of tree nodes. -/
def nodeDecEq : (a b : DocTreeNode) → Decidable (a = b)
  | .leaf d1, .leaf d2 =>
      match decEq d1 d2 with
      | isTrue h => isTrue (by rw [h])
      | isFalse h => isFalse (fun hh => by cases hh; exact h rfl)
  | .leaf _, .folder _ => isFalse (fun h => by cases h)
  | .folder _, .leaf _ => isFalse (fun h => by cases h)
  | .folder c1, .folder c2 =>
      match childrenDecEq c1 c2 with
      | isTrue h => isTrue (by rw [h])
      | isFalse h => isFalse (fun hh => by cases hh; exact h rfl)
/-- Decidable equality of children records. -/
def childrenDecEq : (a b : List (Str × DocTreeNode)) → Decidable (a = b)
  | [], [] => isTrue rfl
  | [], _ :: _ => isFalse (fun h => by cases h)
  | _ :: _, [] => isFalse (fun h => by cases h)
  | (k1, v1) :: r1, (k2, v2) :: r2 =>
      match decEq k1 k2, nodeDecEq v1 v2, childrenDecEq r1 r2 with
      | isTrue h1, isTrue h2, isTrue h3 => isTrue (by rw [h1, h2, h3])
      | isFalse h1, _, _ => isFalse (fun hh => by cases hh; exact h1 rfl)
      | _, isFalse h2, _ => isFalse (fun hh => by cases hh; exact h2 rfl)
      | _, _, isFalse h3 => isFalse (fun hh => by cases hh; exact h3 rfl)
end

instance : DecidableEq DocTreeNode := nodeDecEq

/-- The in-source test distinguishing leaves from folders. -/
def isDocNode : DocTreeNode → Bool
  | .leaf _ => true
  | .folder _ => false

/-- The children record of a node (empty for a leaf). -/
def childrenOf : DocTreeNode → List (Str × DocTreeNode)
  | .leaf _ => []
  | .folder c => c

/-- The index consulted by the leaf comparator (only applied to leaves). -/
def docIndex : DocTreeNode → Int
  | .leaf d => d.index
  | .folder _ => 0

/-- The title of a leaf (only applied to leaves). -/
def docTitle : DocTreeNode → Str
  | .leaf d => d.title
  | .folder _ => []

/-- Folder display metadata from the static folderConfig table. -/
structure FolderMeta where
  displayName : Str
  order : Int
deriving DecidableEq

/-- The static folderConfig table of DocsSidebar.tsx. -/
def folderConfig (s : Str) : Option FolderMeta :=
  if s = str "tutorials" then some ⟨str "Tutorials", 1⟩
  else if s = str "explanation" then some ⟨str "Explanation", 3⟩
  else if s = str "how-to" then some ⟨str "How-to Guides", 2⟩
  else if s = str "reference" then some ⟨str "Technical Reference", 4⟩
  else none

/-- folderConfig[name]?.order ?? 999. -/
def folderOrder (s : Str) : Int :=
  match folderConfig s with
  | some m => m.order
  | none => 999

/-- folderConfig[name]?.displayName ?? name.replace(/[-_]/g, ' '). -/
def displayNameOf (s : Str) : Str :=
  match folderConfig s with
  | some m => m.displayName
  | none => s.map (fun c => if c = '-' ∨ c = '_' then ' ' else c)

/-- The leaf sort of renderSidebar: a stable sort ascending by the wrapped
document's index (JS Array.prototype.sort is stable). -/
def sortDocs (l : List (Str × DocTreeNode)) : List (Str × DocTreeNode) :=
  l.insertionSort (fun a b => docIndex a.2 ≤ docIndex b.2)

/-- The folder comparator of renderSidebar, parameterized by the
locale-aware name comparison lc (JS String.prototype.localeCompare):
equal configured orders fall back to the name comparison. -/
def folderRel (lc : Str → Str → Int) (a b : Str × DocTreeNode) : Prop :=
  if folderOrder a.1 = folderOrder b.1 then lc a.1 b.1 ≤ 0
  else folderOrder a.1 ≤ folderOrder b.1

instance folderRelDecidable (lc : Str → Str → Int) : DecidableRel (folderRel lc) :=
  fun a b => by unfold folderRel; infer_instance

/-- The folder sort of renderSidebar: a stable sort under the folder
comparator. -/
def sortFolders (lc : Str → Str → Int) (l : List (Str × DocTreeNode)) :
    List (Str × DocTreeNode) :=
  l.insertionSort (folderRel lc)

/-- One level of renderSidebar's ordering (lines 81 to 97 plus the render
order): partition the entries of a folder into leaves and sub-folders, sort
the leaves by index and the folders by configured order, and render the
leaves before the folders. -/
def orderEntries (lc : Str → Str → Int) (c : List (Str × DocTreeNode)) :
    List (Str × DocTreeNode) :=
  sortDocs (c.filter (fun e => isDocNode e.2)) ++
    sortFolders lc (c.filter (fun e => !isDocNode e.2))

mutual
/-- The tree with renderSidebar's rendering order applied at every level. -/
def orderedNode (lc : Str → Str → Int) : DocTreeNode → DocTreeNode
  | .leaf d => .leaf d
  | .folder c => .folder (orderEntries lc (orderedChildren lc c))
/-- Pointwise application of orderedNode to a children record. -/
def orderedChildren (lc : Str → Str → Int) :
    List (Str × DocTreeNode) → List (Str × DocTreeNode)
  | [] => []
  | (k, v) :: rest => (k, orderedNode lc v) :: orderedChildren lc rest
end

/-! ### The tree builder, modelled from the spec -/

/-- Record lookup on a children record. -/
def lookupChild (k : Str) : List (Str × DocTreeNode) → Option DocTreeNode
  | [] => none
  | (k', v) :: rest => if k' = k then some v else lookupChild k rest

/-- Replaces the value stored under an existing key of a children record. -/
def setEntry (k : Str) (v : DocTreeNode) (l : List (Str × DocTreeNode)) :
    List (Str × DocTreeNode) :=
  l.map (fun e => if e.1 = k then (k, v) else e)

/-- Modelled from the spec: the TreeBuilder walk for one document (the
component that folds the flat catalog into the nested groupedDocs record is
not part of the sources; only its consumer DocsSidebar is). For each
document, walk/create folder nodes for every segment but the last and
place a leaf at the last segment. Conflict policy (spec section 7): folder
wins: a leaf standing where a folder is needed is replaced and reported,
and a document whose position is already a folder is dropped and reported;
the reported conflict names the slash-joined path of the conflicting
segment. Returns the updated children record and the conflicts found. -/
def insertDoc (d : Doc) :
    List (Str × DocTreeNode) → Str → List Str →
      List (Str × DocTreeNode) × List Str
  | ch, _, [] => (ch, [])
  | ch, pre, [s] =>
      let cur := joinStep pre s
      match lookupChild s ch with
      | none => (ch ++ [(s, .leaf d)], [])
      | some (.folder _) => (ch, [cur])
      | some (.leaf _) => (ch, [])
  | ch, pre, s :: s2 :: rest =>
      let cur := joinStep pre s
      match lookupChild s ch with
      | none =>
          let r := insertDoc d [] cur (s2 :: rest)
          (ch ++ [(s, .folder r.1)], r.2)
      | some (.folder sub) =>
          let r := insertDoc d sub cur (s2 :: rest)
          (setEntry s (.folder r.1) ch, r.2)
      | some (.leaf _) =>
          let r := insertDoc d [] cur (s2 :: rest)
          (setEntry s (.folder r.1) ch, cur :: r.2)

/-- A slug is well formed when no segment is empty (spec section 7:
MalformedSlug covers an empty slug or an empty segment). -/
def wellFormedSlug (s : Str) : Bool :=
  (splitSlash s).all (fun seg => !seg.isEmpty)

/-- Modelled from the spec: the result of a tree build: the root children
record plus the reported conflicts and rejected malformed slugs
(partial-success model of spec section 7). -/
structure BuildResult where
  children : List (Str × DocTreeNode)
  conflicts : List Str
  malformed : List Str
deriving DecidableEq

/-- Modelled from the spec: one step of the TreeBuilder fold: a malformed
slug is rejected and reported; a well-formed one is walked into the tree. -/
def buildStep (acc : BuildResult) (d : Doc) : BuildResult :=
  if wellFormedSlug d.slug then
    let r := insertDoc d acc.children [] (splitSlash d.slug)
    ⟨r.1, acc.conflicts ++ r.2, acc.malformed⟩
  else ⟨acc.children, acc.conflicts, acc.malformed ++ [d.slug]⟩

/-- Modelled from the spec: the TreeBuilder: fold the ordered catalog into
a root children record, collecting conflict and malformed-slug reports. -/
def buildTree (catalog : List Doc) : BuildResult :=
  catalog.foldl buildStep ⟨[], [], []⟩

/-- The node reached by a non-empty segment path from a children record. -/
def nodeAtPath (ch : List (Str × DocTreeNode)) : List Str → Option DocTreeNode
  | [] => none
  | [s] => lookupChild s ch
  | s :: s2 :: rest =>
      match lookupChild s ch with
      | some (.folder sub) => nodeAtPath sub (s2 :: rest)
      | _ => none

/-- The documents wrapped by the leaf entries of a children record, in
record order. -/
def docsOf (c : List (Str × DocTreeNode)) : List Doc :=
  c.filterMap (fun e => match e.2 with
    | .leaf d => some d
    | .folder _ => none)

/-- Replaces the title of a leaf, leaving everything else unchanged (used
to state that ordering never consults title text). -/
def retitle (f : Str → Str) : DocTreeNode → DocTreeNode
  | .leaf d => .leaf ⟨d.slug, f d.title, d.index⟩
  | .folder c => .folder c

/-! ### Characterizing one insertDoc step through lookups -/

/-- The node stored under the head segment after insertDoc walks it:
either the fresh leaf, the untouched old node, or a folder continuing the
walk (folder wins over a leaf standing in the way). -/
def headUpdate (d : Doc) (cur : Str) :
    List Str → Option DocTreeNode → DocTreeNode
  | [], none => .leaf d
  | [], some v => v
  | r :: rs, none => .folder (insertDoc d [] cur (r :: rs)).1
  | r :: rs, some (.folder sub) => .folder (insertDoc d sub cur (r :: rs)).1
  | r :: rs, some (.leaf _) => .folder (insertDoc d [] cur (r :: rs)).1

/-! ### Leaf ordering (C6) -/

instance docsLeTotal :
    IsTotal (Str × DocTreeNode) (fun a b => docIndex a.2 ≤ docIndex b.2) :=
  ⟨fun _ _ => Int.le_total _ _⟩

instance docsLeTrans :
    IsTrans (Str × DocTreeNode) (fun a b => docIndex a.2 ≤ docIndex b.2) :=
  ⟨fun _ _ _ hab hbc => le_trans hab hbc⟩

/-- The documents wrapped by the leaves at one folder level of a tree: at
the root for the empty path, otherwise at the folder reached by the path. -/
def docsAtPath (ch : List (Str × DocTreeNode)) : List Str → List Doc
  | [] => docsOf ch
  | q :: qs =>
      match nodeAtPath ch (q :: qs) with
      | some (.folder c) => docsOf c
      | _ => []

/-! ### Folder ordering (C7) -/

/-- A trivial locale comparison (used to instantiate witnesses). -/
def lcZero : Str → Str → Int := fun _ _ => 0

/-- A concrete children record of two configured folders. -/
def demoFolderEntries : List (Str × DocTreeNode) :=
  [(str "reference", .folder []), (str "tutorials", .folder [])]

/-! ### Node-kind conflicts (C8) -/

/-- A folder stands at the given path. -/
def folderAt (ch : List (Str × DocTreeNode)) (p : List Str) : Prop :=
  ∃ c, nodeAtPath ch p = some (.folder c)

/-- A leaf stands at the given path. -/
def leafAt (ch : List (Str × DocTreeNode)) (p : List Str) : Prop :=
  ∃ e, nodeAtPath ch p = some (.leaf e)

/-- The path accumulated by walking segments from a prior path string. -/
def joinAll (pre : Str) (segs : List Str) : Str := segs.foldl joinStep pre

/-- The catalog of the spec's concrete scenario 4: a slug that is both a
leaf and an ancestor. -/
def conflictCatalog : List Doc :=
  [⟨str "guide", str "Guide", 0⟩, ⟨str "guide/setup", str "Setup", 0⟩]

/-- The catalog of the spec's concrete scenario 1. -/
def demoCatalog : List Doc :=
  [⟨str "intro", str "Intro", 0⟩,
   ⟨str "guide/setup", str "Setup", 0⟩,
   ⟨str "guide/advanced/tuning", str "Tuning", 1⟩]

/-! ### Structural equivalence of trees up to sibling insertion order (C5) -/

/-- Every folder of the tree has distinct child names (the record
invariant of the nested groupedDocs object). -/
inductive NodupDeep : DocTreeNode → Prop
  | leaf (d : Doc) : NodupDeep (.leaf d)
  | folder (c : List (Str × DocTreeNode)) :
      (c.map Prod.fst).Nodup →
      (∀ e ∈ c, NodupDeep e.2) →
      NodupDeep (.folder c)

/-- NodupDeep for a children record. -/
def NodupDeepC (c : List (Str × DocTreeNode)) : Prop := NodupDeep (.folder c)

/-- Two trees are structurally equivalent when they have the same child
names at every folder (as a permutation, so insertion order may differ)
and equivalent children under each name. -/
inductive EquivT : DocTreeNode → DocTreeNode → Prop
  | leaf (d : Doc) : EquivT (.leaf d) (.leaf d)
  | folder (c₁ c₂ : List (Str × DocTreeNode))
      (hkeys : (c₁.map Prod.fst).Perm (c₂.map Prod.fst))
      (hnd₁ : (c₁.map Prod.fst).Nodup) (hnd₂ : (c₂.map Prod.fst).Nodup)
      (hval : ∀ k v₁ v₂, lookupChild k c₁ = some v₁ →
        lookupChild k c₂ = some v₂ → EquivT v₁ v₂) :
      EquivT (.folder c₁) (.folder c₂)

/-- EquivT for children records. -/
def EquivC (c₁ c₂ : List (Str × DocTreeNode)) : Prop :=
  EquivT (.folder c₁) (.folder c₂)

/-- The children record produced by folding a catalog into an initial
record (the children component of the TreeBuilder fold). -/
def foldChildren (C : List Doc) (ch : List (Str × DocTreeNode)) :
    List (Str × DocTreeNode) :=
  C.foldl (fun ch d =>
    if wellFormedSlug d.slug then (insertDoc d ch [] (splitSlash d.slug)).1 else ch) ch

/-- Provenance: every leaf of the record wraps a catalog document whose
slug segments spell out the leaf's position. -/
inductive ProvOK (C : List Doc) : List Str → List (Str × DocTreeNode) → Prop
  | mk (p : List Str) (c : List (Str × DocTreeNode))
      (hleaf : ∀ k dd, (k, DocTreeNode.leaf dd) ∈ c →
        dd ∈ C ∧ splitSlash dd.slug = p ++ [k])
      (hfold : ∀ k sub, (k, DocTreeNode.folder sub) ∈ c →
        ProvOK C (p ++ [k]) sub) :
      ProvOK C p c

/-- At every folder, distinct leaf entries carry distinct index values
(the hypothesis under which the stable leaf sort is order-independent). -/
inductive IdxOK : DocTreeNode → Prop
  | leaf (d : Doc) : IdxOK (.leaf d)
  | folder (c : List (Str × DocTreeNode)) :
      (∀ k₁ d₁ k₂ d₂, (k₁, DocTreeNode.leaf d₁) ∈ c → (k₂, DocTreeNode.leaf d₂) ∈ c →
        d₁.index = d₂.index → k₁ = k₂ ∧ d₁ = d₂) →
      (∀ e ∈ c, IdxOK e.2) →
      IdxOK (.folder c)

def removeEntry (e : Str × DocTreeNode) :
    List (Str × DocTreeNode) → List (Str × DocTreeNode)
  | [] => []
  | h :: t => if h = e then t else h :: removeEntry e t

/-- A concrete locale comparison for witnesses: lexicographic comparison
of the character sequences (a total order, as localeCompare is). -/
def lcCompare : Str → Str → Int
  | [], [] => 0
  | [], _ :: _ => -1
  | _ :: _, [] => 1
  | a :: as, b :: bs => if a < b then -1 else if b < a then 1 else lcCompare as bs

/-- Two single-segment documents with equal index values, in the two
possible catalog orders. -/
def tieCatalogA : List Doc :=
  [⟨str "a", str "A", 0⟩, ⟨str "b", str "B", 0⟩]

def tieCatalogB : List Doc :=
  [⟨str "b", str "B", 0⟩, ⟨str "a", str "A", 0⟩]

/-! ### Lemmas about record lookup -/

theorem lookupKey_filter_keyPred (P : Str → Bool) (q : Str) :
    ∀ s : OpenFolders, lookupKey q (s.filter (fun e => P e.1)) =
      if P q then lookupKey q s else none := by
  intro s
  induction s with
  | nil => simp [lookupKey]
  | cons e rest ih =>
      obtain ⟨k, v⟩ := e
      by_cases hk : k = q
      · subst hk
        by_cases hP : P k
        · simp [List.filter, hP, lookupKey, ih]
        · simp only [List.filter, hP]
          simp only [Bool.false_eq_true] at hP
          simp [lookupKey, ih, hP]
      · by_cases hP : P k
        · simp [List.filter, hP, lookupKey, hk, ih]
        · simp only [List.filter, hP]
          simp [lookupKey, hk, ih]

theorem lookupKey_append (q : Str) (a b : OpenFolders) :
    lookupKey q (a ++ b) =
      match lookupKey q a with
      | some v => some v
      | none => lookupKey q b := by
  induction a with
  | nil => simp [lookupKey]
  | cons e rest ih =>
      obtain ⟨k, v⟩ := e
      by_cases hk : k = q
      · simp [lookupKey, hk]
      · simp [lookupKey, hk, ih]

theorem lookupKey_singleton (q p : Str) (v : Bool) :
    lookupKey q [(p, v)] = if p = q then some v else none := by
  simp [lookupKey]

/-! ### The toggle transition, observed through lookups -/

theorem isOpenIn_toggle (s : OpenFolders) (p q : Str) :
    isOpenIn (toggleFolder p s) q =
      if level q = level p then (decide (q = p) && !(isOpenIn s p))
      else isOpenIn s q := by
  by_cases hopen : truthy (lookupKey p s) = true
  · have h1 : toggleFolder p s = s.filter (fun e => level e.1 != level p) := by
      simp [toggleFolder, hopen]
    rw [h1]
    unfold isOpenIn
    rw [lookupKey_filter_keyPred (fun k => level k != level p) q s]
    by_cases hq : level q = level p
    · have hb : (level q != level p) = false := by simp [hq]
      simp [hb, hq, truthy, hopen]
      intro _
      exact hopen
    · have hb : (level q != level p) = true := by simpa using hq
      simp [hb, hq]
  · have hopen' : truthy (lookupKey p s) = false := by
      simpa using hopen
    have h1 : toggleFolder p s =
        s.filter (fun e => level e.1 != level p) ++ [(p, true)] := by
      simp [toggleFolder, hopen']
    rw [h1]
    unfold isOpenIn
    rw [lookupKey_append, lookupKey_filter_keyPred (fun k => level k != level p) q s]
    by_cases hq : level q = level p
    · have hb : (level q != level p) = false := by simp [hq]
      by_cases hqp : q = p
      · subst hqp
        simp [hb, hq, lookupKey, truthy, hopen']
        exact hopen'
      · have hpq : ¬ (p = q) := fun h => hqp h.symm
        simp [hb, hq, hqp, lookupKey, hpq, truthy]
    · have hb : (level q != level p) = true := by simpa using hq
      have hpq : ¬ (p = q) := by
        intro h
        subst h
        exact hq rfl
      simp only [hb, if_true, hq, if_false]
      cases hlq : lookupKey q s with
      | some v => simp
      | none => simp [lookupKey, hpq, truthy]

/-! ### Levels of the paths produced by the route effect -/

theorem splitSlash_ne_nil (s : Str) : splitSlash s ≠ [] := by
  induction s with
  | nil => simp [splitSlash]
  | cons c rest ih =>
      by_cases hc : c = '/'
      · simp [splitSlash, hc]
      · simp only [splitSlash, hc, if_false]
        cases h : splitSlash rest with
        | nil => exact absurd h ih
        | cons a t => simp [consHead]

theorem splitSlash_no_slash {s : Str} {x : Str} (hx : x ∈ splitSlash s) : '/' ∉ x := by
  induction s generalizing x with
  | nil =>
      simp [splitSlash] at hx
      subst hx
      simp
  | cons c rest ih =>
      by_cases hc : c = '/'
      · simp [splitSlash, hc] at hx
        rcases hx with hx | hx
        · subst hx; simp
        · exact ih hx
      · simp only [splitSlash, hc, if_false] at hx
        cases h : splitSlash rest with
        | nil => exact absurd h (splitSlash_ne_nil rest)
        | cons a t =>
            rw [h] at hx
            simp [consHead] at hx
            rcases hx with hx | hx
            · subst hx
              intro hmem
              rcases List.mem_cons.mp hmem with h1 | h1
              · exact hc h1.symm
              · exact ih (by rw [h]; exact List.mem_cons_self a t) h1
            · exact ih (by rw [h]; exact List.mem_cons_of_mem a hx)

theorem level_slashFree {s : Str} (h : '/' ∉ s) : splitSlash s = [s] := by
  induction s with
  | nil => simp [splitSlash]
  | cons c rest ih =>
      have hc : c ≠ '/' := fun hc => h (by simp [hc])
      have hrest : '/' ∉ rest := fun hm => h (List.mem_cons_of_mem c hm)
      simp [splitSlash, hc, ih hrest, consHead]

theorem level_append_slash (a b : Str) : level (a ++ '/' :: b) = level a + level b := by
  induction a with
  | nil =>
      simp [level, splitSlash]
      omega
  | cons c rest ih =>
      by_cases hc : c = '/'
      · simp [level, splitSlash, hc] at *
        omega
      · simp only [level, List.cons_append, splitSlash, hc, if_false] at *
        cases h : splitSlash (rest ++ '/' :: b) with
        | nil => exact absurd h (splitSlash_ne_nil _)
        | cons x t =>
            rw [h] at ih
            cases h2 : splitSlash rest with
            | nil => exact absurd h2 (splitSlash_ne_nil _)
            | cons y t2 =>
                rw [h2] at ih
                simp [consHead] at *
                omega

theorem level_joinStep (acc : Str) {part : Str} (hpart : '/' ∉ part) :
    level (joinStep acc part) = baseLevel acc + 1 := by
  by_cases hacc : acc = []
  · subst hacc
    simp [joinStep, baseLevel, level, level_slashFree hpart]
  · simp only [joinStep, hacc, if_false, baseLevel, if_neg hacc]
    rw [level_append_slash]
    have : level part = 1 := by simp [level, level_slashFree hpart]
    omega

theorem joinStep_ne_nil (acc : Str) {part : Str} (hpart : part ≠ []) :
    joinStep acc part ≠ [] := by
  by_cases hacc : acc = []
  · simp [joinStep, hacc, hpart]
  · simp [joinStep, hacc]

theorem initPathsGo_level_gt :
    ∀ (parts : List Str) (acc : Str),
      (∀ x ∈ parts, '/' ∉ x) → (∀ x ∈ parts, x ≠ []) →
      ∀ e ∈ initPathsGo acc parts, baseLevel acc < level e.1 := by
  intro parts
  induction parts with
  | nil => intro acc _ _ e he; simp [initPathsGo] at he
  | cons part rest ih =>
      intro acc hsf hne e he
      have hp : '/' ∉ part := hsf part (by simp)
      have hpn : part ≠ [] := hne part (by simp)
      simp only [initPathsGo, List.mem_cons] at he
      rcases he with he | he
      · subst he
        simp [level_joinStep acc hp]
      · have hnp : joinStep acc part ≠ [] := joinStep_ne_nil acc hpn
        have := ih (joinStep acc part)
          (fun x hx => hsf x (by simp [hx]))
          (fun x hx => hne x (by simp [hx])) e he
        have hbase : baseLevel (joinStep acc part) = baseLevel acc + 1 := by
          simp [baseLevel, hnp, level_joinStep acc hp]
        omega

theorem initPathsGo_pairwise_level :
    ∀ (parts : List Str) (acc : Str),
      (∀ x ∈ parts, '/' ∉ x) → (∀ x ∈ parts, x ≠ []) →
      (initPathsGo acc parts).Pairwise (fun a b => level a.1 < level b.1) := by
  intro parts
  induction parts with
  | nil => intro acc _ _; simp [initPathsGo]
  | cons part rest ih =>
      intro acc hsf hne
      have hp : '/' ∉ part := hsf part (by simp)
      have hpn : part ≠ [] := hne part (by simp)
      have hnp : joinStep acc part ≠ [] := joinStep_ne_nil acc hpn
      simp only [initPathsGo]
      refine List.Pairwise.cons ?_ ?_
      · intro e he
        have := initPathsGo_level_gt rest (joinStep acc part)
          (fun x hx => hsf x (by simp [hx]))
          (fun x hx => hne x (by simp [hx])) e he
        have hbase : baseLevel (joinStep acc part) = level (joinStep acc part) := by
          simp [baseLevel, hnp]
        show level (joinStep acc part) < level e.1
        omega
      · exact ih (joinStep acc part)
          (fun x hx => hsf x (by simp [hx]))
          (fun x hx => hne x (by simp [hx]))

theorem isOpenIn_initPathsGo :
    ∀ (parts : List Str) (acc : Str) (q : Str),
      isOpenIn (initPathsGo acc parts) q = true ↔
        q ∈ (initPathsGo acc parts).map Prod.fst := by
  intro parts
  induction parts with
  | nil => intro acc q; simp [initPathsGo, isOpenIn, lookupKey, truthy]
  | cons part rest ih =>
      intro acc q
      simp only [initPathsGo, isOpenIn, lookupKey, List.map_cons, List.mem_cons]
      by_cases hq : joinStep acc part = q
      · simp [hq, truthy]
      · simp only [hq, if_false]
        rw [← isOpenIn]
        rw [ih (joinStep acc part) q]
        constructor
        · intro h; exact Or.inr h
        · intro h
          rcases h with h | h
          · exact absurd h.symm hq
          · exact h

theorem atMostOne_initPathsGo (parts : List Str) (acc : Str)
    (hsf : ∀ x ∈ parts, '/' ∉ x) (hne : ∀ x ∈ parts, x ≠ []) :
    AtMostOnePerLevel (initPathsGo acc parts) := by
  intro p q hp hq hl
  rw [isOpenIn_initPathsGo] at hp hq
  obtain ⟨ep, hep, heq⟩ := List.mem_map.mp hp
  obtain ⟨eq', heq', heq2⟩ := List.mem_map.mp hq
  have hpw := initPathsGo_pairwise_level parts acc hsf hne
  have hne' : (initPathsGo acc parts).Pairwise
      (fun a b => level a.1 ≠ level b.1) :=
    hpw.imp (fun h => Nat.ne_of_lt h)
  have hsymm : Symmetric (fun a b : Str × Bool => level a.1 ≠ level b.1) :=
    fun a b h => Ne.symm h
  by_cases hee : ep = eq'
  · rw [← heq, ← heq2, hee]
  · have := hne'.forall hsymm hep heq' hee
    rw [heq, heq2] at this
    exact absurd hl this

theorem atMostOne_toggle {s : OpenFolders} (hs : AtMostOnePerLevel s) (p : Str) :
    AtMostOnePerLevel (toggleFolder p s) := by
  intro q r hq hr hl
  rw [isOpenIn_toggle] at hq hr
  by_cases hql : level q = level p
  · have hrl : level r = level p := by rw [← hl, hql]
    rw [if_pos hql] at hq
    rw [if_pos hrl] at hr
    have hq' : q = p := by
      by_cases h : q = p
      · exact h
      · simp [h] at hq
    have hr' : r = p := by
      by_cases h : r = p
      · exact h
      · simp [h] at hr
    rw [hq', hr']
  · have hrl : ¬ level r = level p := by rw [← hl]; exact hql
    rw [if_neg hql] at hq
    rw [if_neg hrl] at hr
    exact hs q r hq hr hl

theorem atMostOne_route {s : OpenFolders} (hs : AtMostOnePerLevel s)
    (pn : Option Str) (hw : wellFormedRoute pn) :
    AtMostOnePerLevel (routeObserve pn s) := by
  cases pn with
  | none => exact hs
  | some p =>
      have hroute : routeObserve (some p) s =
          if (str "/docs/").isPrefixOf p then
            initPathsGo [] (routeSlugParts p).dropLast
          else s := rfl
      rw [hroute]
      by_cases hpre : (str "/docs/").isPrefixOf p
      · rw [if_pos hpre]
        apply atMostOne_initPathsGo
        · intro x hx
          have hx' : x ∈ routeSlugParts p := List.dropLast_sublist _ |>.mem hx
          exact splitSlash_no_slash hx'
        · intro x hx
          have hx' : x ∈ routeSlugParts p := List.dropLast_sublist _ |>.mem hx
          exact hw hpre x hx'
      · rw [if_neg hpre]
        exact hs

/-- C1. Sibling exclusivity: every expansion state reachable by initializing
from an active route and applying toggle transitions has at most one open
folder path at any given depth level. -/
theorem c1_sibling_exclusivity {s : OpenFolders} (hs : Reachable s) :
    AtMostOnePerLevel s := by
  induction hs with
  | empty => intro p q hp hq _; simp [isOpenIn, lookupKey, truthy] at hp
  | route pn s hw _ ih => exact atMostOne_route ih pn hw
  | toggle p s _ ih => exact atMostOne_toggle ih p

/-- Witness for C1 at a concrete reachable state: initialize from the route
"/docs/guide/advanced/tuning", then toggle "guide" and "reference". -/
theorem c1_sibling_exclusivity_witness :
    AtMostOnePerLevel (toggleFolder (str "reference")
      (toggleFolder (str "guide")
        (routeObserve (some (str "/docs/guide/advanced/tuning")) []))) :=
  c1_sibling_exclusivity
    (Reachable.toggle _ _ (Reachable.toggle _ _
      (Reachable.route _ _ (by intro _h; decide) Reachable.empty)))

theorem joinSegs_ne_nil :
    ∀ l : List Str, l ≠ [] → (∀ x ∈ l, x ≠ []) → joinSegs l ≠ [] := by
  intro l
  match l with
  | [] => intro h _; exact absurd rfl h
  | [s] =>
      intro _ hne
      simpa [joinSegs] using hne s (by simp)
  | s :: s2 :: rest =>
      intro _ _
      simp [joinSegs]

theorem joinSegs_cons_cons (s : Str) (l : List Str) (hl : l ≠ []) :
    joinSegs (s :: l) = s ++ '/' :: joinSegs l := by
  match l with
  | [] => exact absurd rfl hl
  | a :: t => simp [joinSegs]

theorem joinStep_joinSegs (pre : List Str) (part : Str)
    (hne : ∀ x ∈ pre, x ≠ []) :
    joinStep (joinSegs pre) part = joinSegs (pre ++ [part]) := by
  induction pre with
  | nil => simp [joinSegs, joinStep]
  | cons s rest ih =>
      by_cases hrest : rest = []
      · subst hrest
        have hs : s ≠ [] := hne s (by simp)
        simp [joinSegs, joinStep, hs]
      · have hne' : ∀ x ∈ rest, x ≠ [] := fun x hx => hne x (by simp [hx])
        have hjoin : joinSegs rest ≠ [] := joinSegs_ne_nil rest hrest hne'
        rw [joinSegs_cons_cons s rest hrest]
        have hcons : joinSegs ((s :: rest) ++ [part]) =
            s ++ '/' :: joinSegs (rest ++ [part]) := by
          rw [List.cons_append]
          exact joinSegs_cons_cons s (rest ++ [part]) (by simp)
        rw [hcons, ← ih hne']
        simp [joinStep, hjoin]

theorem initPathsGo_keys (parts : List Str) :
    ∀ pre : List Str, (∀ x ∈ pre, x ≠ []) → (∀ x ∈ parts, x ≠ []) →
      (initPathsGo (joinSegs pre) parts).map Prod.fst =
        (List.range parts.length).map (fun i => joinSegs (pre ++ parts.take (i + 1))) := by
  induction parts with
  | nil => intro pre _ _; simp [initPathsGo]
  | cons part rest ih =>
      intro pre hpre hparts
      have hpart : part ≠ [] := hparts part (by simp)
      have hrest : ∀ x ∈ rest, x ≠ [] := fun x hx => hparts x (by simp [hx])
      have hpre' : ∀ x ∈ pre ++ [part], x ≠ [] := by
        intro x hx
        rcases List.mem_append.mp hx with hx | hx
        · exact hpre x hx
        · simp at hx; subst hx; exact hpart
      have hstep : joinStep (joinSegs pre) part = joinSegs (pre ++ [part]) :=
        joinStep_joinSegs pre part hpre
      simp only [initPathsGo, List.map_cons, hstep]
      rw [ih (pre ++ [part]) hpre' hrest]
      rw [List.length_cons, List.range_succ_eq_map]
      simp only [List.map_cons, List.map_map]
      congr 1
      apply List.map_congr_left
      intro i _
      show joinSegs (pre ++ [part] ++ List.take (i + 1) rest) =
        joinSegs (pre ++ List.take (Nat.succ i + 1) (part :: rest))
      rw [List.append_assoc]
      congr 2

theorem dropLast_take {α : Type} (l : List α) (i : Nat) (h : i ≤ l.length - 1) :
    l.dropLast.take i = l.take i := by
  rw [List.dropLast_eq_take, List.take_take]
  congr 1
  omega

theorem initPaths_keys_properAncestors (segs : List Str)
    (hne : ∀ x ∈ segs, x ≠ []) (hs : segs ≠ []) :
    (initPathsGo [] segs.dropLast).map Prod.fst = properAncestorPaths segs := by
  have hkeys := initPathsGo_keys segs.dropLast [] (by simp)
    (fun x hx => hne x ((List.dropLast_sublist segs).mem hx))
  have h0 : joinSegs ([] : List Str) = [] := rfl
  rw [h0] at hkeys
  obtain ⟨m, hm⟩ : ∃ m, segs.length = m + 1 := by
    cases segs with
    | nil => exact absurd rfl hs
    | cons a t => exact ⟨t.length, by simp⟩
  have hdl : segs.dropLast.length = m := by
    rw [List.length_dropLast, hm]
    omega
  rw [hkeys, hdl]
  unfold properAncestorPaths
  rw [hm, List.range_succ_eq_map]
  rw [show ((0 :: List.map Nat.succ (List.range m)).drop 1 =
    List.map Nat.succ (List.range m)) from rfl]
  rw [List.map_map]
  apply List.map_congr_left
  intro i hi
  simp only [List.nil_append, Function.comp_apply]
  congr 1
  apply dropLast_take
  rw [hm]
  have : i < m := List.mem_range.mp hi
  omega

/-- C2. Initialization correctness: on observing an active docs route, the
expansion set becomes exactly the ancestor chain of the slug (the joined
proper, non-empty prefixes of its segment sequence, excluding the leaf), and
the computation replaces the prior expansion set, whatever it was. -/
theorem c2_init_correct (pn : Str) (s s' : OpenFolders) (q : Str)
    (hpre : (str "/docs/").isPrefixOf pn = true)
    (hne : ∀ part ∈ routeSlugParts pn, part ≠ []) :
    (isOpenIn (routeObserve (some pn) s) q = true ↔
       q ∈ properAncestorPaths (routeSlugParts pn)) ∧
    routeObserve (some pn) s = routeObserve (some pn) s' := by
  have hroute : ∀ t : OpenFolders, routeObserve (some pn) t =
      initPathsGo [] (routeSlugParts pn).dropLast := by
    intro t
    show (if (str "/docs/").isPrefixOf pn then
        initPathsGo [] (routeSlugParts pn).dropLast else t) = _
    rw [if_pos hpre]
  refine ⟨?_, by rw [hroute s, hroute s']⟩
  rw [hroute s]
  rw [isOpenIn_initPathsGo]
  rw [initPaths_keys_properAncestors (routeSlugParts pn) hne (splitSlash_ne_nil _)]

/-- Witness for C2 at the spec's concrete example: active slug "a/b/c". -/
theorem c2_init_correct_witness :
    (isOpenIn (routeObserve (some (str "/docs/a/b/c")) []) (str "a/b") = true ↔
       str "a/b" ∈ properAncestorPaths (routeSlugParts (str "/docs/a/b/c"))) ∧
    routeObserve (some (str "/docs/a/b/c")) [] =
      routeObserve (some (str "/docs/a/b/c")) [(str "zzz", true)] :=
  c2_init_correct _ _ _ _ (by decide) (by decide)

/-- C4. Ancestor preservation: toggling a folder path never changes the
open/closed status of any path at a different depth level. -/
theorem c4_frame (s : OpenFolders) (p q : Str) (h : level q ≠ level p) :
    isOpenIn (toggleFolder p s) q = isOpenIn s q := by
  rw [isOpenIn_toggle]
  exact if_neg h

/-- Witness for C4: toggling "guide/advanced" (depth 2) leaves the depth-1
path "guide" untouched. -/
theorem c4_frame_witness :
    level (str "guide") ≠ level (str "guide/advanced") ∧
    isOpenIn (toggleFolder (str "guide/advanced") [(str "guide", true)])
        (str "guide") =
      isOpenIn [(str "guide", true)] (str "guide") :=
  ⟨by decide, c4_frame _ _ _ (by decide)⟩

/-- C10. Non-docs route guard: when the pathname is absent or does not start
with "/docs/", the route effect leaves the expansion state unchanged. -/
theorem c10_route_guard :
    (∀ s : OpenFolders, routeObserve none s = s) ∧
    (∀ (pn : Str) (s : OpenFolders), (str "/docs/").isPrefixOf pn = false →
      routeObserve (some pn) s = s) := by
  refine ⟨fun s => rfl, fun pn s h => ?_⟩
  show (if (str "/docs/").isPrefixOf pn then
      initPathsGo [] (routeSlugParts pn).dropLast else s) = s
  rw [h]
  simp

/-- Witness for C10: a non-docs pathname retains the prior expansion set. -/
theorem c10_route_guard_witness :
    routeObserve (some (str "/about")) [(str "guide", true)] =
      [(str "guide", true)] :=
  c10_route_guard.2 (str "/about") [(str "guide", true)] (by decide)

/-- C9 counterexample: toggling an already-open path twice does not remove
every entry at its depth; the path itself ends up open again. -/
theorem c9_double_toggle_counterexample :
    toggleFolder (str "a") (toggleFolder (str "a") [(str "a", true)]) ≠
      ([(str "a", true)] : OpenFolders).filter
        (fun e => level e.1 != level (str "a")) := by
  decide

/-- C9 amended. Double toggle: if the path was closed, toggling it twice
removes exactly the entries at its depth; if it was open, the same removal
happens but the path itself is appended open again. -/
theorem c9_double_toggle_amended (s : OpenFolders) (p : Str) :
    toggleFolder p (toggleFolder p s) =
      if truthy (lookupKey p s) then
        s.filter (fun e => level e.1 != level p) ++ [(p, true)]
      else s.filter (fun e => level e.1 != level p) := by
  by_cases h : truthy (lookupKey p s) = true
  · have h1 : toggleFolder p s = s.filter (fun e => level e.1 != level p) := by
      simp [toggleFolder, h]
    have h2 : truthy (lookupKey p (s.filter (fun e => level e.1 != level p))) = false := by
      rw [lookupKey_filter_keyPred (fun k => level k != level p) p s]
      simp [truthy]
    rw [h1]
    unfold toggleFolder
    rw [h2]
    simp only [Bool.false_eq_true, if_false, if_pos h]
    rw [List.filter_filter]
    simp
  · have h' : truthy (lookupKey p s) = false := by simpa using h
    have h1 : toggleFolder p s =
        s.filter (fun e => level e.1 != level p) ++ [(p, true)] := by
      simp [toggleFolder, h']
    have h2 : truthy (lookupKey p
        (s.filter (fun e => level e.1 != level p) ++ [(p, true)])) = true := by
      rw [lookupKey_append, lookupKey_filter_keyPred (fun k => level k != level p) p s]
      simp [lookupKey, truthy]
    rw [h1]
    unfold toggleFolder
    rw [h2]
    simp only [if_true, h', Bool.false_eq_true, if_false]
    rw [List.filter_append, List.filter_filter]
    simp

/-- C3 amended. Toggling is total over path strings and not validated
against the tree; but it is not a no-op on unknown paths: any toggle flips
the toggled path's open status. -/
theorem c3_unknown_toggle_amended (s : OpenFolders) (p : Str) :
    isOpenIn (toggleFolder p s) p = !(isOpenIn s p) := by
  rw [isOpenIn_toggle]
  simp

theorem lookupChild_append (k : Str) (a b : List (Str × DocTreeNode)) :
    lookupChild k (a ++ b) =
      match lookupChild k a with
      | some v => some v
      | none => lookupChild k b := by
  induction a with
  | nil => simp [lookupChild]
  | cons e rest ih =>
      obtain ⟨k', v⟩ := e
      by_cases hk : k' = k
      · simp [lookupChild, hk]
      · simp [lookupChild, hk, ih]

theorem setEntry_cons (s : Str) (v : DocTreeNode) (k' : Str) (w : DocTreeNode)
    (rest : List (Str × DocTreeNode)) :
    setEntry s v ((k', w) :: rest) =
      (if k' = s then (s, v) else (k', w)) :: setEntry s v rest := rfl

theorem lookupChild_setEntry (k s : Str) (v : DocTreeNode) :
    ∀ l : List (Str × DocTreeNode),
      lookupChild k (setEntry s v l) =
        if k = s then
          (match lookupChild s l with
           | some _ => some v
           | none => none)
        else lookupChild k l := by
  intro l
  induction l with
  | nil =>
      by_cases hks : k = s <;> simp [lookupChild, setEntry, hks]
  | cons e rest ih =>
      obtain ⟨k', w⟩ := e
      rw [setEntry_cons]
      by_cases hk's : k' = s
      · rw [if_pos hk's]
        subst hk's
        by_cases hkk : k = k'
        · subst hkk
          simp [lookupChild]
        · have hk'k : ¬ (k' = k) := fun h => hkk h.symm
          simp only [lookupChild, if_neg hk'k, ih, if_neg hkk]
      · rw [if_neg hk's]
        by_cases hkk : k' = k
        · subst hkk
          simp [lookupChild, hk's]
        · have hsk' : ¬ (k' = s) := hk's
          simp only [lookupChild, if_neg hkk, ih]
          by_cases hks : k = s
          · rw [if_pos hks, if_pos hks, if_neg hsk']
          · rw [if_neg hks, if_neg hks]

theorem lookupChild_isSome_iff_mem (k : Str) :
    ∀ l : List (Str × DocTreeNode),
      (lookupChild k l).isSome = true ↔ k ∈ l.map Prod.fst := by
  intro l
  induction l with
  | nil => simp [lookupChild]
  | cons e rest ih =>
      obtain ⟨k', v⟩ := e
      by_cases hk : k' = k
      · subst hk
        rw [show lookupChild k' ((k', v) :: rest) = some v from by simp [lookupChild]]
        rw [List.map_cons]
        constructor
        · intro _
          exact List.mem_cons_self _ _
        · intro _
          rfl
      · rw [show lookupChild k ((k', v) :: rest) = lookupChild k rest from by
          simp [lookupChild, hk]]
        simp only [List.map_cons, List.mem_cons]
        rw [ih]
        constructor
        · exact fun h => Or.inr h
        · rintro (h | h)
          · exact absurd h.symm hk
          · exact h

theorem setEntry_keys (s : Str) (v : DocTreeNode) :
    ∀ l : List (Str × DocTreeNode),
      (setEntry s v l).map Prod.fst = l.map Prod.fst := by
  intro l
  induction l with
  | nil => rfl
  | cons e rest ih =>
      obtain ⟨k', w⟩ := e
      rw [setEntry_cons]
      by_cases hk : k' = s
      · rw [if_pos hk]
        simp only [List.map_cons, ih, hk]
      · rw [if_neg hk]
        simp only [List.map_cons, ih]

theorem insertDoc_lookup (d : Doc) (s : Str) (rest : List Str)
    (ch : List (Str × DocTreeNode)) (pre : Str) (k : Str) :
    lookupChild k (insertDoc d ch pre (s :: rest)).1 =
      if k = s then some (headUpdate d (joinStep pre s) rest (lookupChild s ch))
      else lookupChild k ch := by
  cases rest with
  | nil =>
      cases hold : lookupChild s ch with
      | none =>
          simp only [insertDoc, hold]
          rw [lookupChild_append]
          by_cases hk : k = s
          · subst hk
            simp [hold, lookupChild, headUpdate]
          · have hsk : ¬ (s = k) := fun h => hk h.symm
            cases h2 : lookupChild k ch with
            | some v => simp [h2, hk]
            | none => simp [h2, hk, lookupChild, hsk]
      | some v =>
          have hch : (insertDoc d ch pre [s]).1 = ch := by
            cases v with
            | folder c => simp [insertDoc, hold]
            | leaf e => simp [insertDoc, hold]
          rw [hch]
          by_cases hk : k = s
          · subst hk
            rw [if_pos rfl, hold]
            cases v with
            | folder c => rfl
            | leaf e => rfl
          · rw [if_neg hk]
  | cons s2 rest2 =>
      cases hold : lookupChild s ch with
      | none =>
          simp only [insertDoc, hold]
          rw [lookupChild_append]
          by_cases hk : k = s
          · subst hk
            simp [hold, lookupChild, headUpdate]
          · have hsk : ¬ (s = k) := fun h => hk h.symm
            cases h2 : lookupChild k ch with
            | some v => simp [h2, hk]
            | none => simp [h2, hk, lookupChild, hsk]
      | some v =>
          cases v with
          | folder c =>
              simp only [insertDoc, hold]
              rw [lookupChild_setEntry]
              by_cases hk : k = s
              · rw [if_pos hk, if_pos hk, hold]
                rfl
              · rw [if_neg hk, if_neg hk]
          | leaf e =>
              simp only [insertDoc, hold]
              rw [lookupChild_setEntry]
              by_cases hk : k = s
              · rw [if_pos hk, if_pos hk, hold]
                rfl
              · rw [if_neg hk, if_neg hk]

theorem nodeAtPath_congrHead {ch ch' : List (Str × DocTreeNode)} (q : Str)
    (tail : List Str) (h : lookupChild q ch' = lookupChild q ch) :
    nodeAtPath ch' (q :: tail) = nodeAtPath ch (q :: tail) := by
  cases tail with
  | nil => exact h
  | cons t ts =>
      show (match lookupChild q ch' with
        | some (.folder sub) => nodeAtPath sub (t :: ts)
        | _ => none) =
        (match lookupChild q ch with
        | some (.folder sub) => nodeAtPath sub (t :: ts)
        | _ => none)
      rw [h]

theorem sortDocs_perm (l : List (Str × DocTreeNode)) : (sortDocs l).Perm l :=
  List.perm_insertionSort _ l

theorem sortDocs_sorted (l : List (Str × DocTreeNode)) :
    (sortDocs l).Pairwise (fun a b => docIndex a.2 ≤ docIndex b.2) :=
  List.sorted_insertionSort _ l

theorem sortDocs_stable (l : List (Str × DocTreeNode)) (k : Int) :
    (sortDocs l).filter (fun e => docIndex e.2 == k) =
      l.filter (fun e => docIndex e.2 == k) := by
  have hidx : ∀ e ∈ l.filter (fun e => docIndex e.2 == k), docIndex e.2 = k := by
    intro e he
    have := (List.mem_filter.mp he).2
    simpa using this
  have hpw : (l.filter (fun e => docIndex e.2 == k)).Pairwise
      (fun a b => docIndex a.2 ≤ docIndex b.2) := by
    apply List.pairwise_of_forall_mem_list
    intro a ha b hb
    rw [hidx a ha, hidx b hb]
  have h1 : (l.filter (fun e => docIndex e.2 == k)).Sublist (sortDocs l) :=
    List.sublist_insertionSort hpw (List.filter_sublist l)
  have hfix : (l.filter (fun e => docIndex e.2 == k)).filter
      (fun e => docIndex e.2 == k) = l.filter (fun e => docIndex e.2 == k) := by
    rw [List.filter_filter]
    apply List.filter_congr
    intro e _
    cases h : (docIndex e.2 == k) <;> simp [h]
  have h2 : (l.filter (fun e => docIndex e.2 == k)).Sublist
      ((sortDocs l).filter (fun e => docIndex e.2 == k)) := by
    rw [← hfix]
    exact List.Sublist.filter _ h1
  have hlen : ((sortDocs l).filter (fun e => docIndex e.2 == k)).length =
      (l.filter (fun e => docIndex e.2 == k)).length :=
    ((sortDocs_perm l).filter _).length_eq
  exact (h2.eq_of_length hlen.symm).symm

theorem docIndex_retitle (f : Str → Str) (v : DocTreeNode) :
    docIndex (retitle f v) = docIndex v := by
  cases v <;> rfl

theorem sortDocs_ignores_titles (f : Str → Str) (l : List (Str × DocTreeNode)) :
    sortDocs (l.map (fun e => (e.1, retitle f e.2))) =
      (sortDocs l).map (fun e => (e.1, retitle f e.2)) := by
  refine (List.map_insertionSort _ _ _ l ?_).symm
  intro a _ b _
  simp [docIndex_retitle]

theorem docsOf_append (a b : List (Str × DocTreeNode)) :
    docsOf (a ++ b) = docsOf a ++ docsOf b :=
  List.filterMap_append a b _

theorem docsOf_setEntry_folder (s : Str) (sub : List (Str × DocTreeNode)) :
    ∀ l : List (Str × DocTreeNode),
      (docsOf (setEntry s (.folder sub) l)).Sublist (docsOf l) := by
  intro l
  induction l with
  | nil => simp [setEntry, docsOf]
  | cons e rest ih =>
      obtain ⟨k', w⟩ := e
      rw [setEntry_cons]
      by_cases hk : k' = s
      · rw [if_pos hk]
        show (docsOf ((s, DocTreeNode.folder sub) :: setEntry s (.folder sub) rest)).Sublist _
        rw [show docsOf ((s, DocTreeNode.folder sub) :: setEntry s (.folder sub) rest) =
          docsOf (setEntry s (.folder sub) rest) from rfl]
        cases w with
        | leaf d =>
            rw [show docsOf ((k', DocTreeNode.leaf d) :: rest) = d :: docsOf rest from rfl]
            exact ih.trans (List.sublist_cons_self d (docsOf rest))
        | folder c =>
            rw [show docsOf ((k', DocTreeNode.folder c) :: rest) = docsOf rest from rfl]
            exact ih
      · rw [if_neg hk]
        cases w with
        | leaf d =>
            rw [show docsOf ((k', DocTreeNode.leaf d) :: setEntry s (.folder sub) rest) =
              d :: docsOf (setEntry s (.folder sub) rest) from rfl]
            rw [show docsOf ((k', DocTreeNode.leaf d) :: rest) = d :: docsOf rest from rfl]
            exact ih.cons₂ d
        | folder c =>
            rw [show docsOf ((k', DocTreeNode.folder c) :: setEntry s (.folder sub) rest) =
              docsOf (setEntry s (.folder sub) rest) from rfl]
            rw [show docsOf ((k', DocTreeNode.folder c) :: rest) = docsOf rest from rfl]
            exact ih

theorem docsAtPath_nil_children (p : List Str) :
    docsAtPath ([] : List (Str × DocTreeNode)) p = [] := by
  cases p with
  | nil => rfl
  | cons q qs => cases qs <;> simp [docsAtPath, nodeAtPath, lookupChild]

theorem docsAtPath_descend {q : Str} {ch sub : List (Str × DocTreeNode)}
    (tail : List Str) (h : lookupChild q ch = some (.folder sub)) :
    docsAtPath ch (q :: tail) = docsAtPath sub tail := by
  cases tail with
  | nil => simp [docsAtPath, nodeAtPath, h]
  | cons t ts =>
      show (match nodeAtPath ch (q :: t :: ts) with
        | some (.folder c) => docsOf c
        | _ => []) = _
      rw [show nodeAtPath ch (q :: t :: ts) = nodeAtPath sub (t :: ts) from by
        simp [nodeAtPath, h]]
      rfl

theorem docsAtPath_block_none {q : Str} {ch : List (Str × DocTreeNode)}
    (tail : List Str) (h : lookupChild q ch = none) :
    docsAtPath ch (q :: tail) = [] := by
  cases tail with
  | nil => simp [docsAtPath, nodeAtPath, h]
  | cons t ts => simp [docsAtPath, nodeAtPath, h]

theorem docsAtPath_block_leaf {q : Str} {ch : List (Str × DocTreeNode)} {e : Doc}
    (tail : List Str) (h : lookupChild q ch = some (.leaf e)) :
    docsAtPath ch (q :: tail) = [] := by
  cases tail with
  | nil => simp [docsAtPath, nodeAtPath, h]
  | cons t ts => simp [docsAtPath, nodeAtPath, h]

theorem docsAtPath_congrHead {ch ch' : List (Str × DocTreeNode)} (q : Str)
    (tail : List Str) (h : lookupChild q ch' = lookupChild q ch) :
    docsAtPath ch' (q :: tail) = docsAtPath ch (q :: tail) := by
  cases tail with
  | nil =>
      show (match nodeAtPath ch' [q] with
        | some (.folder c) => docsOf c
        | _ => []) =
        (match nodeAtPath ch [q] with
        | some (.folder c) => docsOf c
        | _ => [])
      rw [show nodeAtPath ch' [q] = nodeAtPath ch [q] from h]
  | cons t ts =>
      show (match nodeAtPath ch' (q :: t :: ts) with
        | some (.folder c) => docsOf c
        | _ => []) = _
      rw [nodeAtPath_congrHead q (t :: ts) h]
      rfl

theorem docsAtPath_insertDoc (d : Doc) :
    ∀ (segs : List Str) (ch : List (Str × DocTreeNode)) (pre : Str) (p : List Str),
      (docsAtPath (insertDoc d ch pre segs).1 p).Sublist (docsAtPath ch p ++ [d]) := by
  intro segs
  induction segs with
  | nil =>
      intro ch pre p
      exact List.sublist_append_left _ _
  | cons s rest ih =>
      cases rest with
      | nil =>
          intro ch pre p
          cases hold : lookupChild s ch with
          | none =>
              have hch : (insertDoc d ch pre [s]).1 = ch ++ [(s, .leaf d)] := by
                simp [insertDoc, hold]
              rw [hch]
              cases p with
              | nil =>
                  rw [show docsAtPath (ch ++ [(s, DocTreeNode.leaf d)]) [] =
                    docsOf (ch ++ [(s, DocTreeNode.leaf d)]) from rfl]
                  rw [docsOf_append]
                  rw [show docsOf [(s, DocTreeNode.leaf d)] = [d] from rfl]
                  exact List.Sublist.refl _
              | cons q qs =>
                  by_cases hq : q = s
                  · subst hq
                    have hlk : lookupChild q (ch ++ [(q, DocTreeNode.leaf d)]) =
                        some (.leaf d) := by
                      rw [lookupChild_append, hold]
                      simp [lookupChild]
                    rw [docsAtPath_block_leaf qs hlk]
                    exact List.nil_sublist _
                  · have hlk : lookupChild q (ch ++ [(s, DocTreeNode.leaf d)]) =
                        lookupChild q ch := by
                      rw [lookupChild_append]
                      cases h2 : lookupChild q ch with
                      | some v => rfl
                      | none =>
                          have hsq : ¬ (s = q) := fun h => hq h.symm
                          simp [lookupChild, hsq]
                    rw [docsAtPath_congrHead q qs hlk]
                    exact List.sublist_append_left _ _
          | some v =>
              have hch : (insertDoc d ch pre [s]).1 = ch := by
                cases v with
                | folder c => simp [insertDoc, hold]
                | leaf e => simp [insertDoc, hold]
              rw [hch]
              exact List.sublist_append_left _ _
      | cons s2 rest2 =>
          intro ch pre p
          cases hold : lookupChild s ch with
          | none =>
              have hch : (insertDoc d ch pre (s :: s2 :: rest2)).1 =
                  ch ++ [(s, .folder (insertDoc d [] (joinStep pre s) (s2 :: rest2)).1)] := by
                simp [insertDoc, hold]
              rw [hch]
              cases p with
              | nil =>
                  rw [show docsAtPath (ch ++
                    [(s, DocTreeNode.folder (insertDoc d [] (joinStep pre s) (s2 :: rest2)).1)]) [] =
                    docsOf ch ++ [] from by
                      rw [show docsAtPath _ [] = docsOf _ from rfl, docsOf_append]; rfl]
                  rw [List.append_nil]
                  exact List.sublist_append_left _ _
              | cons q qs =>
                  by_cases hq : q = s
                  · subst hq
                    have hlk : lookupChild q (ch ++
                        [(q, DocTreeNode.folder (insertDoc d [] (joinStep pre q) (s2 :: rest2)).1)]) =
                        some (.folder (insertDoc d [] (joinStep pre q) (s2 :: rest2)).1) := by
                      rw [lookupChild_append, hold]
                      simp [lookupChild]
                    rw [docsAtPath_descend qs hlk]
                    rw [docsAtPath_block_none qs hold]
                    have := ih [] (joinStep pre q) qs
                    rw [docsAtPath_nil_children qs] at this
                    simpa using this
                  · have hlk : lookupChild q (ch ++
                        [(s, DocTreeNode.folder (insertDoc d [] (joinStep pre s) (s2 :: rest2)).1)]) =
                        lookupChild q ch := by
                      rw [lookupChild_append]
                      cases h2 : lookupChild q ch with
                      | some v => rfl
                      | none =>
                          have hsq : ¬ (s = q) := fun h => hq h.symm
                          simp [lookupChild, hsq]
                    rw [docsAtPath_congrHead q qs hlk]
                    exact List.sublist_append_left _ _
          | some v =>
              cases v with
              | folder sub =>
                  have hch : (insertDoc d ch pre (s :: s2 :: rest2)).1 =
                      setEntry s (.folder (insertDoc d sub (joinStep pre s) (s2 :: rest2)).1) ch := by
                    simp [insertDoc, hold]
                  rw [hch]
                  cases p with
                  | nil =>
                      exact (docsOf_setEntry_folder _ _ ch).trans
                        (List.sublist_append_left _ _)
                  | cons q qs =>
                      by_cases hq : q = s
                      · subst hq
                        have hlk : lookupChild q (setEntry q
                            (.folder (insertDoc d sub (joinStep pre q) (s2 :: rest2)).1) ch) =
                            some (.folder (insertDoc d sub (joinStep pre q) (s2 :: rest2)).1) := by
                          rw [lookupChild_setEntry]
                          simp [hold]
                        rw [docsAtPath_descend qs hlk]
                        rw [docsAtPath_descend qs hold]
                        exact ih sub (joinStep pre q) qs
                      · have hlk : lookupChild q (setEntry s
                            (.folder (insertDoc d sub (joinStep pre s) (s2 :: rest2)).1) ch) =
                            lookupChild q ch := by
                          rw [lookupChild_setEntry]
                          rw [if_neg hq]
                        rw [docsAtPath_congrHead q qs hlk]
                        exact List.sublist_append_left _ _
              | leaf e =>
                  have hch : (insertDoc d ch pre (s :: s2 :: rest2)).1 =
                      setEntry s (.folder (insertDoc d [] (joinStep pre s) (s2 :: rest2)).1) ch := by
                    simp [insertDoc, hold]
                  rw [hch]
                  cases p with
                  | nil =>
                      exact (docsOf_setEntry_folder _ _ ch).trans
                        (List.sublist_append_left _ _)
                  | cons q qs =>
                      by_cases hq : q = s
                      · subst hq
                        have hlk : lookupChild q (setEntry q
                            (.folder (insertDoc d [] (joinStep pre q) (s2 :: rest2)).1) ch) =
                            some (.folder (insertDoc d [] (joinStep pre q) (s2 :: rest2)).1) := by
                          rw [lookupChild_setEntry]
                          simp [hold]
                        rw [docsAtPath_descend qs hlk]
                        rw [docsAtPath_block_leaf qs hold]
                        have := ih [] (joinStep pre q) qs
                        rw [docsAtPath_nil_children qs] at this
                        simpa using this
                      · have hlk : lookupChild q (setEntry s
                            (.folder (insertDoc d [] (joinStep pre s) (s2 :: rest2)).1) ch) =
                            lookupChild q ch := by
                          rw [lookupChild_setEntry]
                          rw [if_neg hq]
                        rw [docsAtPath_congrHead q qs hlk]
                        exact List.sublist_append_left _ _

theorem docsAtPath_buildSteps (p : List Str) :
    ∀ (L : List Doc) (acc : BuildResult),
      (docsAtPath (L.foldl buildStep acc).children p).Sublist
        (docsAtPath acc.children p ++ L) := by
  intro L
  induction L with
  | nil =>
      intro acc
      rw [List.append_nil]
      exact List.Sublist.refl _
  | cons d t ih =>
      intro acc
      rw [List.foldl_cons]
      refine (ih (buildStep acc d)).trans ?_
      by_cases hwf : wellFormedSlug d.slug
      · have hstep : (buildStep acc d).children =
            (insertDoc d acc.children [] (splitSlash d.slug)).1 := by
          simp [buildStep, hwf]
        rw [hstep]
        have h1 := docsAtPath_insertDoc d (splitSlash d.slug) acc.children [] p
        have h2 := h1.append_right t
        rw [List.append_assoc] at h2
        exact h2
      · have hstep : (buildStep acc d).children = acc.children := by
          simp [buildStep, hwf]
        rw [hstep]
        exact List.Sublist.append_left (List.sublist_cons_self d t) _

/-- C6. Leaf ordering: at every folder level the rendered leaves are the
level's leaves stably sorted ascending by Document.index: the sort is a
permutation, sorted by index, ties keep their original relative order,
title text is never consulted, and the original order of the leaves at any
folder level of a built tree follows the catalog order. -/
theorem c6_leaf_ordering (l : List (Str × DocTreeNode)) (k : Int)
    (f : Str → Str) (C : List Doc) (p : List Str) :
    (sortDocs l).Perm l ∧
    (sortDocs l).Pairwise (fun a b => docIndex a.2 ≤ docIndex b.2) ∧
    ((sortDocs l).filter (fun e => docIndex e.2 == k) =
      l.filter (fun e => docIndex e.2 == k)) ∧
    (sortDocs (l.map (fun e => (e.1, retitle f e.2))) =
      (sortDocs l).map (fun e => (e.1, retitle f e.2))) ∧
    (docsAtPath (buildTree C).children p).Sublist C := by
  refine ⟨sortDocs_perm l, sortDocs_sorted l, sortDocs_stable l k,
    sortDocs_ignores_titles f l, ?_⟩
  have := docsAtPath_buildSteps p C ⟨[], [], []⟩
  rw [show (⟨[], [], []⟩ : BuildResult).children = [] from rfl] at this
  rw [docsAtPath_nil_children p] at this
  simpa [buildTree] using this

/-- C7. Folder ordering: the folder sort is a permutation of the folder
entries, sorted ascending by configured order with ties broken by the
locale-aware name comparison lc; and every name absent from the folderConfig
table receives order 999. -/
theorem c7_folder_ordering (lc : Str → Str → Int)
    (htot : ∀ a b : Str, lc a b ≤ 0 ∨ lc b a ≤ 0)
    (htr : ∀ a b c : Str, lc a b ≤ 0 → lc b c ≤ 0 → lc a c ≤ 0)
    (l : List (Str × DocTreeNode)) :
    (sortFolders lc l).Perm l ∧
    List.Sorted (folderRel lc) (sortFolders lc l) ∧
    (∀ nm : Str, nm ≠ str "tutorials" → nm ≠ str "explanation" →
      nm ≠ str "how-to" → nm ≠ str "reference" → folderOrder nm = 999) := by
  haveI hT : IsTotal (Str × DocTreeNode) (folderRel lc) := by
    constructor
    intro a b
    unfold folderRel
    by_cases h : folderOrder a.1 = folderOrder b.1
    · rw [if_pos h, if_pos h.symm]
      exact htot a.1 b.1
    · rw [if_neg h, if_neg (fun hh => h hh.symm)]
      omega
  haveI hR : IsTrans (Str × DocTreeNode) (folderRel lc) := by
    constructor
    intro a b c hab hbc
    unfold folderRel at *
    by_cases h1 : folderOrder a.1 = folderOrder b.1
    · rw [if_pos h1] at hab
      by_cases h2 : folderOrder b.1 = folderOrder c.1
      · rw [if_pos h2] at hbc
        rw [if_pos (h1.trans h2)]
        exact htr a.1 b.1 c.1 hab hbc
      · rw [if_neg h2] at hbc
        rw [if_neg (fun hh => h2 (by rw [← h1, hh]))]
        omega
    · rw [if_neg h1] at hab
      by_cases h2 : folderOrder b.1 = folderOrder c.1
      · rw [if_neg (fun hh => h1 (by rw [hh, ← h2]))]
        omega
      · rw [if_neg h2] at hbc
        by_cases h3 : folderOrder a.1 = folderOrder c.1
        · exfalso
          omega
        · rw [if_neg h3]
          omega
  refine ⟨List.perm_insertionSort _ l, List.sorted_insertionSort _ l, ?_⟩
  intro nm h1 h2 h3 h4
  unfold folderOrder folderConfig
  rw [if_neg h1, if_neg h2, if_neg h3, if_neg h4]

/-- Witness for C7 at the trivial comparison and a concrete record. -/
theorem c7_folder_ordering_witness :
    (sortFolders lcZero demoFolderEntries).Perm demoFolderEntries ∧
    List.Sorted (folderRel lcZero) (sortFolders lcZero demoFolderEntries) ∧
    (∀ nm : Str, nm ≠ str "tutorials" → nm ≠ str "explanation" →
      nm ≠ str "how-to" → nm ≠ str "reference" → folderOrder nm = 999) :=
  c7_folder_ordering lcZero
    (fun a b => Or.inl (by simp [lcZero]))
    (fun a b c _ _ => by simp [lcZero])
    demoFolderEntries

theorem joinAll_cons (pre : Str) (s : Str) (rest : List Str) :
    joinAll pre (s :: rest) = joinAll (joinStep pre s) rest := rfl

theorem nodeAtPath_nil (ch : List (Str × DocTreeNode)) : nodeAtPath ch [] = none := rfl

theorem nodeAtPath_descend {q : Str} {ch sub : List (Str × DocTreeNode)}
    (t : Str) (ts : List Str) (h : lookupChild q ch = some (.folder sub)) :
    nodeAtPath ch (q :: t :: ts) = nodeAtPath sub (t :: ts) := by
  simp [nodeAtPath, h]

theorem leafAt_cons_inv {ch : List (Str × DocTreeNode)} {q t : Str} {ts : List Str}
    (h : leafAt ch (q :: t :: ts)) :
    ∃ sub, lookupChild q ch = some (.folder sub) ∧ leafAt sub (t :: ts) := by
  obtain ⟨e, he⟩ := h
  cases hlk : lookupChild q ch with
  | none => rw [show nodeAtPath ch (q :: t :: ts) = none from by simp [nodeAtPath, hlk]] at he; cases he
  | some v =>
      cases v with
      | leaf e2 => rw [show nodeAtPath ch (q :: t :: ts) = none from by simp [nodeAtPath, hlk]] at he; cases he
      | folder sub =>
          rw [nodeAtPath_descend t ts hlk] at he
          exact ⟨sub, rfl, e, he⟩

theorem folderAt_cons_inv {ch : List (Str × DocTreeNode)} {q t : Str} {ts : List Str}
    (h : folderAt ch (q :: t :: ts)) :
    ∃ sub, lookupChild q ch = some (.folder sub) ∧ folderAt sub (t :: ts) := by
  obtain ⟨c, hc⟩ := h
  cases hlk : lookupChild q ch with
  | none => rw [show nodeAtPath ch (q :: t :: ts) = none from by simp [nodeAtPath, hlk]] at hc; cases hc
  | some v =>
      cases v with
      | leaf e2 => rw [show nodeAtPath ch (q :: t :: ts) = none from by simp [nodeAtPath, hlk]] at hc; cases hc
      | folder sub =>
          rw [nodeAtPath_descend t ts hlk] at hc
          exact ⟨sub, rfl, c, hc⟩

theorem leafAt_singleton_inv {ch : List (Str × DocTreeNode)} {q : Str}
    (h : leafAt ch [q]) : ∃ e, lookupChild q ch = some (.leaf e) := h

theorem folderAt_singleton_inv {ch : List (Str × DocTreeNode)} {q : Str}
    (h : folderAt ch [q]) : ∃ c, lookupChild q ch = some (.folder c) := h

theorem headUpdate_folder (d : Doc) (cur : Str) (r : Str) (rs : List Str)
    (old : Option DocTreeNode) :
    ∃ c, headUpdate d cur (r :: rs) old = .folder c := by
  cases old with
  | none => exact ⟨_, rfl⟩
  | some v =>
      cases v with
      | leaf e => exact ⟨_, rfl⟩
      | folder sub => exact ⟨_, rfl⟩

theorem headUpdate_nil_some (d : Doc) (cur : Str) (v : DocTreeNode) :
    headUpdate d cur [] (some v) = v := rfl

theorem headUpdate_nil_none (d : Doc) (cur : Str) :
    headUpdate d cur [] none = .leaf d := rfl

theorem headUpdate_cons_none (d : Doc) (cur : Str) (r : Str) (rs : List Str) :
    headUpdate d cur (r :: rs) none = .folder (insertDoc d [] cur (r :: rs)).1 := rfl

theorem headUpdate_cons_folder (d : Doc) (cur : Str) (r : Str) (rs : List Str)
    (sub : List (Str × DocTreeNode)) :
    headUpdate d cur (r :: rs) (some (.folder sub)) =
      .folder (insertDoc d sub cur (r :: rs)).1 := rfl

theorem headUpdate_cons_leaf (d : Doc) (cur : Str) (r : Str) (rs : List Str)
    (e : Doc) :
    headUpdate d cur (r :: rs) (some (.leaf e)) =
      .folder (insertDoc d [] cur (r :: rs)).1 := rfl

theorem wellFormedSlug_segments {s : Str} (h : wellFormedSlug s = true) :
    ∀ x ∈ splitSlash s, x ≠ [] := by
  intro x hx
  have := (List.all_eq_true.mp h) x hx
  intro hnil
  subst hnil
  simp at this

theorem joinSegs_splitSlash (s : Str) : joinSegs (splitSlash s) = s := by
  induction s with
  | nil => rfl
  | cons c rest ih =>
      by_cases hc : c = '/'
      · subst hc
        rw [show splitSlash ('/' :: rest) = [] :: splitSlash rest from by simp [splitSlash]]
        rw [joinSegs_cons_cons [] (splitSlash rest) (splitSlash_ne_nil rest)]
        rw [ih]
        rfl
      · rw [show splitSlash (c :: rest) = consHead c (splitSlash rest) from by
          simp [splitSlash, hc]]
        cases hsp : splitSlash rest with
        | nil => exact absurd hsp (splitSlash_ne_nil rest)
        | cons h t =>
            rw [show consHead c (h :: t) = (c :: h) :: t from rfl]
            rw [hsp] at ih
            cases t with
            | nil =>
                rw [show joinSegs [c :: h] = c :: h from rfl]
                rw [show joinSegs [h] = h from rfl] at ih
                rw [ih]
            | cons t1 ts =>
                rw [joinSegs_cons_cons (c :: h) (t1 :: ts) (by simp)]
                rw [joinSegs_cons_cons h (t1 :: ts) (by simp)] at ih
                rw [← ih]
                rfl

theorem joinAll_joinSegs :
    ∀ (segs pre : List Str), (∀ x ∈ pre, x ≠ []) → (∀ x ∈ segs, x ≠ []) →
      joinAll (joinSegs pre) segs = joinSegs (pre ++ segs) := by
  intro segs
  induction segs with
  | nil => intro pre _ _; simp [joinAll]
  | cons s rest ih =>
      intro pre hpre hsegs
      rw [show joinAll (joinSegs pre) (s :: rest) =
        joinAll (joinStep (joinSegs pre) s) rest from rfl]
      rw [joinStep_joinSegs pre s hpre]
      rw [ih (pre ++ [s]) (by
        intro y hy
        rcases List.mem_append.mp hy with hy | hy
        · exact hpre y hy
        · rw [List.mem_singleton] at hy
          rw [hy]
          exact hsegs s (List.mem_cons_self s rest))
        (fun y hy => hsegs y (by simp [hy]))]
      rw [List.append_assoc]
      rfl

theorem joinAll_nil_eq_joinSegs (segs : List Str) (h : ∀ x ∈ segs, x ≠ []) :
    joinAll [] segs = joinSegs segs := by
  have := joinAll_joinSegs segs [] (by simp) h
  simpa using this

theorem folderAt_insertDoc (d : Doc) :
    ∀ (segs : List Str) (ch : List (Str × DocTreeNode)) (pre : Str) (p : List Str),
      folderAt ch p → folderAt (insertDoc d ch pre segs).1 p := by
  intro segs
  induction segs with
  | nil => intro ch pre p h; exact h
  | cons s rest ih =>
      intro ch pre p h
      cases p with
      | nil =>
          obtain ⟨c, hc⟩ := h
          rw [nodeAtPath_nil] at hc
          cases hc
      | cons q tail =>
          by_cases hq : q = s
          · subst hq
            cases tail with
            | nil =>
                obtain ⟨c, hc⟩ := folderAt_singleton_inv h
                have hlk := insertDoc_lookup d q rest ch pre q
                rw [if_pos rfl, hc] at hlk
                cases rest with
                | nil =>
                    rw [headUpdate_nil_some] at hlk
                    exact ⟨c, by
                      rw [show nodeAtPath (insertDoc d ch pre [q]).1 [q] =
                        lookupChild q (insertDoc d ch pre [q]).1 from rfl, hlk]⟩
                | cons r rs =>
                    obtain ⟨c2, hc2⟩ :=
                      headUpdate_folder d (joinStep pre q) r rs (some (.folder c))
                    exact ⟨c2, by
                      rw [show nodeAtPath (insertDoc d ch pre (q :: r :: rs)).1 [q] =
                        lookupChild q (insertDoc d ch pre (q :: r :: rs)).1 from rfl,
                        hlk, hc2]⟩
            | cons t ts =>
                obtain ⟨sub, hsub, hfsub⟩ := folderAt_cons_inv h
                have hlk := insertDoc_lookup d q rest ch pre q
                rw [if_pos rfl, hsub] at hlk
                cases rest with
                | nil =>
                    rw [headUpdate_nil_some] at hlk
                    have hlk2 : lookupChild q (insertDoc d ch pre [q]).1 =
                        some (.folder sub) := hlk
                    obtain ⟨c, hc⟩ := hfsub
                    exact ⟨c, by rw [nodeAtPath_descend t ts hlk2]; exact hc⟩
                | cons r rs =>
                    rw [headUpdate_cons_folder] at hlk
                    have hlk2 : lookupChild q (insertDoc d ch pre (q :: r :: rs)).1 =
                        some (.folder (insertDoc d sub (joinStep pre q) (r :: rs)).1) := hlk
                    obtain ⟨c, hc⟩ := ih sub (joinStep pre q) (t :: ts) hfsub
                    exact ⟨c, by rw [nodeAtPath_descend t ts hlk2]; exact hc⟩
          · have hlk := insertDoc_lookup d s rest ch pre q
            rw [if_neg hq] at hlk
            obtain ⟨c, hc⟩ := h
            exact ⟨c, by rw [nodeAtPath_congrHead q tail hlk]; exact hc⟩

theorem folderAt_insert_extension (d : Doc) :
    ∀ (P ext : List Str) (ch : List (Str × DocTreeNode)) (pre : Str),
      P ≠ [] → ext ≠ [] → folderAt (insertDoc d ch pre (P ++ ext)).1 P := by
  intro P
  induction P with
  | nil => intro ext ch pre hP _; exact absurd rfl hP
  | cons p0 P' ih =>
      intro ext ch pre _ hext
      cases P' with
      | nil =>
          cases ext with
          | nil => exact absurd rfl hext
          | cons e es =>
              rw [List.singleton_append]
              have hlk := insertDoc_lookup d p0 (e :: es) ch pre p0
              rw [if_pos rfl] at hlk
              obtain ⟨c, hc⟩ :=
                headUpdate_folder d (joinStep pre p0) e es (lookupChild p0 ch)
              exact ⟨c, by
                rw [show nodeAtPath (insertDoc d ch pre (p0 :: e :: es)).1 [p0] =
                  lookupChild p0 (insertDoc d ch pre (p0 :: e :: es)).1 from rfl,
                  hlk, hc]⟩
      | cons p1 P'' =>
          rw [List.cons_append, List.cons_append]
          have hlk := insertDoc_lookup d p0 (p1 :: (P'' ++ ext)) ch pre p0
          rw [if_pos rfl] at hlk
          cases hold : lookupChild p0 ch with
          | none =>
              rw [hold, headUpdate_cons_none] at hlk
              have hsub := ih ext [] (joinStep pre p0) (by simp) hext
              rw [List.cons_append] at hsub
              obtain ⟨c, hc⟩ := hsub
              exact ⟨c, by rw [nodeAtPath_descend p1 P'' hlk]; exact hc⟩
          | some v =>
              cases v with
              | folder sub =>
                  rw [hold, headUpdate_cons_folder] at hlk
                  have hsub := ih ext sub (joinStep pre p0) (by simp) hext
                  rw [List.cons_append] at hsub
                  obtain ⟨c, hc⟩ := hsub
                  exact ⟨c, by rw [nodeAtPath_descend p1 P'' hlk]; exact hc⟩
              | leaf e0 =>
                  rw [hold, headUpdate_cons_leaf] at hlk
                  have hsub := ih ext [] (joinStep pre p0) (by simp) hext
                  rw [List.cons_append] at hsub
                  obtain ⟨c, hc⟩ := hsub
                  exact ⟨c, by rw [nodeAtPath_descend p1 P'' hlk]; exact hc⟩

theorem nodeAtPath_singleton (ch : List (Str × DocTreeNode)) (s : Str) :
    nodeAtPath ch [s] = lookupChild s ch := rfl

theorem conflict_insert_at_folder (d : Doc) :
    ∀ (segs : List Str) (ch : List (Str × DocTreeNode)) (pre : Str),
      folderAt ch segs → joinAll pre segs ∈ (insertDoc d ch pre segs).2 := by
  intro segs
  induction segs with
  | nil =>
      intro ch pre h
      obtain ⟨c, hc⟩ := h
      rw [nodeAtPath_nil] at hc
      cases hc
  | cons s rest ih =>
      intro ch pre h
      cases rest with
      | nil =>
          obtain ⟨c, hc⟩ := folderAt_singleton_inv h
          have hconf : (insertDoc d ch pre [s]).2 = [joinStep pre s] := by
            simp [insertDoc, hc]
          rw [hconf, joinAll_cons]
          simp [joinAll]
      | cons s2 rest2 =>
          obtain ⟨sub, hsub, hfsub⟩ := folderAt_cons_inv h
          have h2 : (insertDoc d ch pre (s :: s2 :: rest2)).2 =
              (insertDoc d sub (joinStep pre s) (s2 :: rest2)).2 := by
            simp [insertDoc, hsub]
          rw [h2, joinAll_cons]
          exact ih sub (joinStep pre s) hfsub

theorem leaf_replaced_by_extension (d : Doc) :
    ∀ (P ext : List Str) (ch : List (Str × DocTreeNode)) (pre : Str),
      ext ≠ [] → leafAt ch P →
      folderAt (insertDoc d ch pre (P ++ ext)).1 P ∧
        joinAll pre P ∈ (insertDoc d ch pre (P ++ ext)).2 := by
  intro P
  induction P with
  | nil =>
      intro ext ch pre _ h
      obtain ⟨e, he⟩ := h
      rw [nodeAtPath_nil] at he
      cases he
  | cons p0 P' ih =>
      intro ext ch pre hext h
      cases P' with
      | nil =>
          obtain ⟨e, he⟩ := leafAt_singleton_inv h
          cases ext with
          | nil => exact absurd rfl hext
          | cons e1 es =>
              rw [List.singleton_append]
              constructor
              · have hlk := insertDoc_lookup d p0 (e1 :: es) ch pre p0
                rw [if_pos rfl, he, headUpdate_cons_leaf] at hlk
                exact ⟨_, by rw [nodeAtPath_singleton, hlk]⟩
              · have hconf : (insertDoc d ch pre (p0 :: e1 :: es)).2 =
                    joinStep pre p0 :: (insertDoc d [] (joinStep pre p0) (e1 :: es)).2 := by
                  simp [insertDoc, he]
                rw [hconf, joinAll_cons]
                simp [joinAll]
      | cons p1 P'' =>
          rw [List.cons_append, List.cons_append]
          obtain ⟨sub, hsub, hlsub⟩ := leafAt_cons_inv h
          have ihres := ih ext sub (joinStep pre p0) hext hlsub
          rw [List.cons_append] at ihres
          constructor
          · have hlk := insertDoc_lookup d p0 (p1 :: (P'' ++ ext)) ch pre p0
            rw [if_pos rfl, hsub, headUpdate_cons_folder] at hlk
            obtain ⟨c, hc⟩ := ihres.1
            exact ⟨c, by rw [nodeAtPath_descend p1 P'' hlk]; exact hc⟩
          · have hconf : (insertDoc d ch pre (p0 :: (p1 :: (P'' ++ ext)))).2 =
                (insertDoc d sub (joinStep pre p0) (p1 :: (P'' ++ ext))).2 := by
              simp [insertDoc, hsub]
            rw [hconf, joinAll_cons]
            exact ihres.2

theorem leafAt_insert_cases (d : Doc) :
    ∀ (segs : List Str) (ch : List (Str × DocTreeNode)) (pre : Str) (P : List Str),
      leafAt ch P →
      leafAt (insertDoc d ch pre segs).1 P ∨
        (folderAt (insertDoc d ch pre segs).1 P ∧
          joinAll pre P ∈ (insertDoc d ch pre segs).2) := by
  intro segs
  induction segs with
  | nil => intro ch pre P h; exact Or.inl h
  | cons s rest ih =>
      intro ch pre P h
      cases P with
      | nil =>
          obtain ⟨e, he⟩ := h
          rw [nodeAtPath_nil] at he
          cases he
      | cons q tail =>
          by_cases hq : q = s
          · subst hq
            cases tail with
            | nil =>
                obtain ⟨e, he⟩ := leafAt_singleton_inv h
                cases rest with
                | nil =>
                    left
                    have hlk := insertDoc_lookup d q [] ch pre q
                    rw [if_pos rfl, he, headUpdate_nil_some] at hlk
                    exact ⟨e, by rw [nodeAtPath_singleton, hlk]⟩
                | cons r rs =>
                    right
                    constructor
                    · have hlk := insertDoc_lookup d q (r :: rs) ch pre q
                      rw [if_pos rfl, he, headUpdate_cons_leaf] at hlk
                      exact ⟨_, by rw [nodeAtPath_singleton, hlk]⟩
                    · have hconf : (insertDoc d ch pre (q :: r :: rs)).2 =
                          joinStep pre q ::
                            (insertDoc d [] (joinStep pre q) (r :: rs)).2 := by
                        simp [insertDoc, he]
                      rw [hconf, joinAll_cons]
                      simp [joinAll]
            | cons t ts =>
                obtain ⟨sub, hsub, hlsub⟩ := leafAt_cons_inv h
                cases rest with
                | nil =>
                    left
                    have hch : (insertDoc d ch pre [q]).1 = ch := by
                      simp [insertDoc, hsub]
                    rw [hch]
                    exact h
                | cons r rs =>
                    have hlk := insertDoc_lookup d q (r :: rs) ch pre q
                    rw [if_pos rfl, hsub, headUpdate_cons_folder] at hlk
                    have hconf : (insertDoc d ch pre (q :: r :: rs)).2 =
                        (insertDoc d sub (joinStep pre q) (r :: rs)).2 := by
                      simp [insertDoc, hsub]
                    rcases ih sub (joinStep pre q) (t :: ts) hlsub with hl | hfc
                    · left
                      obtain ⟨e, he⟩ := hl
                      exact ⟨e, by rw [nodeAtPath_descend t ts hlk]; exact he⟩
                    · right
                      refine ⟨?_, ?_⟩
                      · obtain ⟨c, hc⟩ := hfc.1
                        exact ⟨c, by rw [nodeAtPath_descend t ts hlk]; exact hc⟩
                      · rw [hconf, joinAll_cons]
                        exact hfc.2
          · left
            have hlk := insertDoc_lookup d s rest ch pre q
            rw [if_neg hq] at hlk
            obtain ⟨e, he⟩ := h
            exact ⟨e, by rw [nodeAtPath_congrHead q tail hlk]; exact he⟩

theorem insert_self_cases (d : Doc) :
    ∀ (segs : List Str) (ch : List (Str × DocTreeNode)) (pre : Str), segs ≠ [] →
      leafAt (insertDoc d ch pre segs).1 segs ∨
        (folderAt (insertDoc d ch pre segs).1 segs ∧
          joinAll pre segs ∈ (insertDoc d ch pre segs).2) := by
  intro segs
  induction segs with
  | nil => intro ch pre h; exact absurd rfl h
  | cons s rest ih =>
      intro ch pre _
      cases rest with
      | nil =>
          cases hold : lookupChild s ch with
          | none =>
              left
              have hlk := insertDoc_lookup d s [] ch pre s
              rw [if_pos rfl, hold, headUpdate_nil_none] at hlk
              exact ⟨d, by rw [nodeAtPath_singleton, hlk]⟩
          | some v =>
              cases v with
              | leaf e =>
                  left
                  have hlk := insertDoc_lookup d s [] ch pre s
                  rw [if_pos rfl, hold, headUpdate_nil_some] at hlk
                  exact ⟨e, by rw [nodeAtPath_singleton, hlk]⟩
              | folder c =>
                  right
                  constructor
                  · have hlk := insertDoc_lookup d s [] ch pre s
                    rw [if_pos rfl, hold, headUpdate_nil_some] at hlk
                    exact ⟨c, by rw [nodeAtPath_singleton, hlk]⟩
                  · have hconf : (insertDoc d ch pre [s]).2 = [joinStep pre s] := by
                      simp [insertDoc, hold]
                    rw [hconf, joinAll_cons]
                    simp [joinAll]
      | cons s2 rest2 =>
          have hne2 : (s2 :: rest2 : List Str) ≠ [] := by simp
          cases hold : lookupChild s ch with
          | none =>
              have hlk := insertDoc_lookup d s (s2 :: rest2) ch pre s
              rw [if_pos rfl, hold, headUpdate_cons_none] at hlk
              have hconf : (insertDoc d ch pre (s :: s2 :: rest2)).2 =
                  (insertDoc d [] (joinStep pre s) (s2 :: rest2)).2 := by
                simp [insertDoc, hold]
              rcases ih [] (joinStep pre s) hne2 with hl | hfc
              · left
                obtain ⟨e, he⟩ := hl
                exact ⟨e, by rw [nodeAtPath_descend s2 rest2 hlk]; exact he⟩
              · right
                refine ⟨?_, ?_⟩
                · obtain ⟨c, hc⟩ := hfc.1
                  exact ⟨c, by rw [nodeAtPath_descend s2 rest2 hlk]; exact hc⟩
                · rw [hconf, joinAll_cons]
                  exact hfc.2
          | some v =>
              cases v with
              | folder sub =>
                  have hlk := insertDoc_lookup d s (s2 :: rest2) ch pre s
                  rw [if_pos rfl, hold, headUpdate_cons_folder] at hlk
                  have hconf : (insertDoc d ch pre (s :: s2 :: rest2)).2 =
                      (insertDoc d sub (joinStep pre s) (s2 :: rest2)).2 := by
                    simp [insertDoc, hold]
                  rcases ih sub (joinStep pre s) hne2 with hl | hfc
                  · left
                    obtain ⟨e, he⟩ := hl
                    exact ⟨e, by rw [nodeAtPath_descend s2 rest2 hlk]; exact he⟩
                  · right
                    refine ⟨?_, ?_⟩
                    · obtain ⟨c, hc⟩ := hfc.1
                      exact ⟨c, by rw [nodeAtPath_descend s2 rest2 hlk]; exact hc⟩
                    · rw [hconf, joinAll_cons]
                      exact hfc.2
              | leaf e0 =>
                  have hlk := insertDoc_lookup d s (s2 :: rest2) ch pre s
                  rw [if_pos rfl, hold, headUpdate_cons_leaf] at hlk
                  have hconf : (insertDoc d ch pre (s :: s2 :: rest2)).2 =
                      joinStep pre s ::
                        (insertDoc d [] (joinStep pre s) (s2 :: rest2)).2 := by
                    simp [insertDoc, hold]
                  rcases ih [] (joinStep pre s) hne2 with hl | hfc
                  · left
                    obtain ⟨e, he⟩ := hl
                    exact ⟨e, by rw [nodeAtPath_descend s2 rest2 hlk]; exact he⟩
                  · right
                    refine ⟨?_, ?_⟩
                    · obtain ⟨c, hc⟩ := hfc.1
                      exact ⟨c, by rw [nodeAtPath_descend s2 rest2 hlk]; exact hc⟩
                    · rw [hconf, joinAll_cons]
                      exact List.mem_cons_of_mem _ hfc.2

theorem conflicts_mono : ∀ (L : List Doc) (acc : BuildResult) {x : Str},
    x ∈ acc.conflicts → x ∈ (L.foldl buildStep acc).conflicts := by
  intro L
  induction L with
  | nil => intro acc x h; exact h
  | cons d t ih =>
      intro acc x h
      rw [List.foldl_cons]
      apply ih
      by_cases hwf : wellFormedSlug d.slug
      · have : (buildStep acc d).conflicts =
            acc.conflicts ++ (insertDoc d acc.children [] (splitSlash d.slug)).2 := by
          simp [buildStep, hwf]
        rw [this]
        exact List.mem_append_left _ h
      · have : (buildStep acc d).conflicts = acc.conflicts := by
          simp [buildStep, hwf]
        rw [this]
        exact h

theorem folderAt_foldl : ∀ (L : List Doc) (acc : BuildResult) {P : List Str},
    folderAt acc.children P → folderAt (L.foldl buildStep acc).children P := by
  intro L
  induction L with
  | nil => intro acc P h; exact h
  | cons d t ih =>
      intro acc P h
      rw [List.foldl_cons]
      apply ih
      by_cases hwf : wellFormedSlug d.slug
      · have hc : (buildStep acc d).children =
            (insertDoc d acc.children [] (splitSlash d.slug)).1 := by
          simp [buildStep, hwf]
        rw [hc]
        exact folderAt_insertDoc d _ acc.children [] P h
      · have hc : (buildStep acc d).children = acc.children := by
          simp [buildStep, hwf]
        rw [hc]
        exact h

theorem m2_fold : ∀ (L : List Doc) (acc : BuildResult) (d : Doc), d ∈ L →
    wellFormedSlug d.slug = true → folderAt acc.children (splitSlash d.slug) →
    folderAt (L.foldl buildStep acc).children (splitSlash d.slug) ∧
      joinAll [] (splitSlash d.slug) ∈ (L.foldl buildStep acc).conflicts := by
  intro L
  induction L with
  | nil => intro acc d hd; cases hd
  | cons x t ih =>
      intro acc d hd hwf hfold
      rw [List.foldl_cons]
      rcases List.mem_cons.mp hd with rfl | hdt
      · have hch : (buildStep acc d).children =
            (insertDoc d acc.children [] (splitSlash d.slug)).1 := by
          simp [buildStep, hwf]
        have hcf : (buildStep acc d).conflicts =
            acc.conflicts ++ (insertDoc d acc.children [] (splitSlash d.slug)).2 := by
          simp [buildStep, hwf]
        constructor
        · apply folderAt_foldl
          rw [hch]
          exact folderAt_insertDoc d _ acc.children [] _ hfold
        · apply conflicts_mono
          rw [hcf]
          exact List.mem_append_right _
            (conflict_insert_at_folder d _ acc.children [] hfold)
      · have hfold' : folderAt (buildStep acc x).children (splitSlash d.slug) := by
          by_cases hwfx : wellFormedSlug x.slug
          · have hc : (buildStep acc x).children =
                (insertDoc x acc.children [] (splitSlash x.slug)).1 := by
              simp [buildStep, hwfx]
            rw [hc]
            exact folderAt_insertDoc x _ acc.children [] _ hfold
          · have hc : (buildStep acc x).children = acc.children := by
              simp [buildStep, hwfx]
            rw [hc]
            exact hfold
        exact ih (buildStep acc x) d hdt hwf hfold'

theorem m3_fold : ∀ (L : List Doc) (acc : BuildResult) (d' : Doc) (P ext : List Str),
    d' ∈ L → wellFormedSlug d'.slug = true → splitSlash d'.slug = P ++ ext →
    ext ≠ [] →
    (leafAt acc.children P ∨
      (folderAt acc.children P ∧ joinAll [] P ∈ acc.conflicts)) →
    folderAt (L.foldl buildStep acc).children P ∧
      joinAll [] P ∈ (L.foldl buildStep acc).conflicts := by
  intro L
  induction L with
  | nil => intro acc d' P ext hd'; cases hd'
  | cons x t ih =>
      intro acc d' P ext hd' hwf' hext hne hstart
      rcases hstart with hleaf | hfc
      · rw [List.foldl_cons]
        rcases List.mem_cons.mp hd' with rfl | hd't
        · have hch : (buildStep acc d').children =
              (insertDoc d' acc.children [] (splitSlash d'.slug)).1 := by
            simp [buildStep, hwf']
          have hcf : (buildStep acc d').conflicts =
              acc.conflicts ++ (insertDoc d' acc.children [] (splitSlash d'.slug)).2 := by
            simp [buildStep, hwf']
          have hrep := leaf_replaced_by_extension d' P ext acc.children [] hne hleaf
          rw [← hext] at hrep
          constructor
          · apply folderAt_foldl
            rw [hch]
            exact hrep.1
          · apply conflicts_mono
            rw [hcf]
            exact List.mem_append_right _ hrep.2
        · by_cases hwfx : wellFormedSlug x.slug
          · have hch : (buildStep acc x).children =
                (insertDoc x acc.children [] (splitSlash x.slug)).1 := by
              simp [buildStep, hwfx]
            have hcf : (buildStep acc x).conflicts =
                acc.conflicts ++ (insertDoc x acc.children [] (splitSlash x.slug)).2 := by
              simp [buildStep, hwfx]
            rcases leafAt_insert_cases x (splitSlash x.slug) acc.children [] P hleaf with
              hl | hfc2
            · refine ih (buildStep acc x) d' P ext hd't hwf' hext hne (Or.inl ?_)
              rw [hch]
              exact hl
            · refine ih (buildStep acc x) d' P ext hd't hwf' hext hne (Or.inr ⟨?_, ?_⟩)
              · rw [hch]
                exact hfc2.1
              · rw [hcf]
                exact List.mem_append_right _ hfc2.2
          · have hch : (buildStep acc x).children = acc.children := by
              simp [buildStep, hwfx]
            refine ih (buildStep acc x) d' P ext hd't hwf' hext hne (Or.inl ?_)
            rw [hch]
            exact hleaf
      · exact ⟨folderAt_foldl (x :: t) acc hfc.1,
          conflicts_mono (x :: t) acc hfc.2⟩

theorem m4_fold : ∀ (C : List Doc) (acc : BuildResult) (d d' : Doc) (ext : List Str),
    d ∈ C → d' ∈ C → wellFormedSlug d.slug = true → wellFormedSlug d'.slug = true →
    splitSlash d'.slug = splitSlash d.slug ++ ext → ext ≠ [] →
    folderAt (C.foldl buildStep acc).children (splitSlash d.slug) ∧
      joinAll [] (splitSlash d.slug) ∈ (C.foldl buildStep acc).conflicts := by
  intro C
  induction C with
  | nil => intro acc d d' ext hd; cases hd
  | cons x t ih =>
      intro acc d d' ext hd hd' hwf hwf' hext hne
      have hdd' : d ≠ d' := by
        intro h
        rw [← h] at hext
        have hlen := congrArg List.length hext
        rw [List.length_append] at hlen
        have : ext.length = 0 := by omega
        exact hne (List.length_eq_zero.mp this)
      rcases List.mem_cons.mp hd with rfl | hdt <;>
        rcases List.mem_cons.mp hd' with h' | hd't
      · exact absurd h'.symm hdd'
      · rw [List.foldl_cons]
        have hch : (buildStep acc d).children =
            (insertDoc d acc.children [] (splitSlash d.slug)).1 := by
          simp [buildStep, hwf]
        have hcf : (buildStep acc d).conflicts =
            acc.conflicts ++ (insertDoc d acc.children [] (splitSlash d.slug)).2 := by
          simp [buildStep, hwf]
        rcases insert_self_cases d (splitSlash d.slug) acc.children []
          (splitSlash_ne_nil _) with hl | hfc
        · refine m3_fold t (buildStep acc d) d' (splitSlash d.slug) ext hd't hwf'
            hext hne (Or.inl ?_)
          rw [hch]
          exact hl
        · refine m3_fold t (buildStep acc d) d' (splitSlash d.slug) ext hd't hwf'
            hext hne (Or.inr ⟨?_, ?_⟩)
          · rw [hch]
            exact hfc.1
          · rw [hcf]
            exact List.mem_append_right _ hfc.2
      · subst h'
        rw [List.foldl_cons]
        have hch : (buildStep acc d').children =
            (insertDoc d' acc.children [] (splitSlash d'.slug)).1 := by
          simp [buildStep, hwf']
        have hfold : folderAt (buildStep acc d').children (splitSlash d.slug) := by
          rw [hch, hext]
          exact folderAt_insert_extension d' (splitSlash d.slug) ext acc.children []
            (splitSlash_ne_nil _) hne
        exact m2_fold t (buildStep acc d') d hdt hwf hfold
      · rw [List.foldl_cons]
        exact ih (buildStep acc x) d d' ext hdt hd't hwf hwf' hext hne

/-- C8. Node-kind conflict policy (spec-modelled TreeBuilder): whenever a
catalog contains a document whose slug is a proper ancestor of another
document's slug, the built tree carries a folder at that slug's path (the
leaf document is dropped in its favor) and the conflict is reported in the
side list under the slug's name; the build itself is a total function and
never aborts. -/
theorem c8_conflict_policy (C : List Doc) (d d' : Doc) (ext : List Str)
    (hd : d ∈ C) (hd' : d' ∈ C)
    (hwf : wellFormedSlug d.slug = true) (hwf' : wellFormedSlug d'.slug = true)
    (hext : splitSlash d'.slug = splitSlash d.slug ++ ext) (hne : ext ≠ []) :
    folderAt (buildTree C).children (splitSlash d.slug) ∧
      d.slug ∈ (buildTree C).conflicts := by
  have h := m4_fold C ⟨[], [], []⟩ d d' ext hd hd' hwf hwf' hext hne
  rw [joinAll_nil_eq_joinSegs _ (wellFormedSlug_segments hwf),
    joinSegs_splitSlash] at h
  exact h

/-- Witness for C8 at the spec's concrete scenario 4. -/
theorem c8_conflict_policy_witness :
    folderAt (buildTree conflictCatalog).children
        (splitSlash (str "guide")) ∧
      str "guide" ∈ (buildTree conflictCatalog).conflicts :=
  c8_conflict_policy conflictCatalog ⟨str "guide", str "Guide", 0⟩
    ⟨str "guide/setup", str "Setup", 0⟩ [str "setup"]
    (by decide) (by decide) (by decide) (by decide) (by decide) (by decide)

/-- C3 counterexample: the path "zzz" has no corresponding folder in the
scenario-1 tree, yet toggling it changes the expansion state (it closes the
open depth-1 folder and records "zzz" itself as open). -/
theorem c3_unknown_toggle_counterexample :
    nodeAtPath (buildTree demoCatalog).children [str "zzz"] = none ∧
    toggleFolder (str "zzz") [(str "guide", true)] ≠ [(str "guide", true)] := by
  constructor
  · decide
  · decide

theorem lookupChild_mem {k : Str} {v : DocTreeNode} :
    ∀ {c : List (Str × DocTreeNode)}, lookupChild k c = some v → (k, v) ∈ c := by
  intro c
  induction c with
  | nil => intro h; cases h
  | cons e rest ih =>
      obtain ⟨k', w⟩ := e
      intro h
      by_cases hk : k' = k
      · subst hk
        rw [show lookupChild k' ((k', w) :: rest) = some w from by simp [lookupChild]] at h
        cases h
        exact List.mem_cons_self _ _
      · rw [show lookupChild k ((k', w) :: rest) = lookupChild k rest from by
          simp [lookupChild, hk]] at h
        exact List.mem_cons_of_mem _ (ih h)

theorem lookupChild_of_mem_nodup {k : Str} {v : DocTreeNode} :
    ∀ {c : List (Str × DocTreeNode)}, (k, v) ∈ c → (c.map Prod.fst).Nodup →
      lookupChild k c = some v := by
  intro c
  induction c with
  | nil => intro h; cases h
  | cons e rest ih =>
      obtain ⟨k', w⟩ := e
      intro hmem hnd
      rcases List.mem_cons.mp hmem with heq | hmem'
      · cases heq
        simp [lookupChild]
      · have hnd' : (k' :: rest.map Prod.fst).Nodup := by
          rw [List.map_cons] at hnd
          exact hnd
        have hk : k' ≠ k := by
          intro h
          subst h
          have : k' ∈ rest.map Prod.fst :=
            List.mem_map.mpr ⟨(k', v), hmem', rfl⟩
          exact (List.nodup_cons.mp hnd').1 this
        rw [show lookupChild k ((k', w) :: rest) = lookupChild k rest from by
          simp [lookupChild, hk]]
        exact ih hmem' (List.nodup_cons.mp hnd').2

theorem nodupDeep_of_lookup {c : List (Str × DocTreeNode)} {k : Str}
    {v : DocTreeNode} (h : NodupDeepC c) (hl : lookupChild k c = some v) :
    NodupDeep v := by
  cases h with
  | folder _ hnd hmem => exact hmem _ (lookupChild_mem hl)

theorem nodupDeepC_keys {c : List (Str × DocTreeNode)} (h : NodupDeepC c) :
    (c.map Prod.fst).Nodup := by
  cases h with
  | folder _ hnd _ => exact hnd

theorem nodupDeepC_nil : NodupDeepC [] := by
  constructor
  · simp
  · intro e he
    cases he

theorem equivT_refl : ∀ {t : DocTreeNode}, NodupDeep t → EquivT t t := by
  intro t h
  induction h with
  | leaf d => exact EquivT.leaf d
  | folder c hnd hmem ih =>
      refine EquivT.folder c c (List.Perm.refl _) hnd hnd ?_
      intro k v₁ v₂ h1 h2
      rw [h1] at h2
      cases h2
      exact ih _ (lookupChild_mem h1)

theorem equivT_symm : ∀ {t₁ t₂ : DocTreeNode}, EquivT t₁ t₂ → EquivT t₂ t₁ := by
  intro t₁ t₂ h
  induction h with
  | leaf d => exact EquivT.leaf d
  | folder c₁ c₂ hkeys hnd₁ hnd₂ hval ih =>
      exact EquivT.folder c₂ c₁ hkeys.symm hnd₂ hnd₁
        (fun k v₂ v₁ h2 h1 => ih k v₁ v₂ h1 h2)

theorem equivT_trans : ∀ {t₁ t₂ t₃ : DocTreeNode},
    EquivT t₁ t₂ → EquivT t₂ t₃ → EquivT t₁ t₃ := by
  intro t₁ t₂ t₃ h1
  induction h1 generalizing t₃ with
  | leaf d => intro h2; exact h2
  | folder c₁ c₂ hkeys hnd₁ hnd₂ hval ih =>
      intro h2
      cases h2 with
      | folder _ c₃ hkeys' hnd₂' hnd₃ hval' =>
          refine EquivT.folder c₁ c₃ (hkeys.trans hkeys') hnd₁ hnd₃ ?_
          intro k v₁ v₃ h₁ h₃
          have hmem2 : k ∈ c₂.map Prod.fst := by
            apply hkeys.mem_iff.mp
            rw [← lookupChild_isSome_iff_mem]
            rw [h₁]
            rfl
          have hsome2 : (lookupChild k c₂).isSome = true :=
            (lookupChild_isSome_iff_mem k c₂).mpr hmem2
          cases hx : lookupChild k c₂ with
          | none => rw [hx] at hsome2; cases hsome2
          | some v₂ => exact ih k v₁ v₂ h₁ hx (hval' k v₂ v₃ hx h₃)

theorem equivT_leaf_inv {e : Doc} {t : DocTreeNode}
    (h : EquivT (.leaf e) t) : t = .leaf e := by
  cases h
  rfl

theorem equivT_folder_inv {c : List (Str × DocTreeNode)} {t : DocTreeNode}
    (h : EquivT (.folder c) t) :
    ∃ c', t = .folder c' ∧ EquivC c c' := by
  cases h with
  | folder _ c₂ hkeys hnd₁ hnd₂ hval =>
      exact ⟨c₂, rfl, EquivT.folder _ _ hkeys hnd₁ hnd₂ hval⟩

theorem equivT_nodup_left : ∀ {t₁ t₂ : DocTreeNode}, EquivT t₁ t₂ → NodupDeep t₁ := by
  intro t₁ t₂ h
  induction h with
  | leaf d => exact NodupDeep.leaf d
  | folder c₁ c₂ hkeys hnd₁ hnd₂ hval ih =>
      refine NodupDeep.folder c₁ hnd₁ ?_
      intro e he
      obtain ⟨k, v⟩ := e
      have h1 : lookupChild k c₁ = some v := lookupChild_of_mem_nodup he hnd₁
      have hmem2 : k ∈ c₂.map Prod.fst := by
        apply hkeys.mem_iff.mp
        rw [← lookupChild_isSome_iff_mem, h1]
        rfl
      have hsome2 : (lookupChild k c₂).isSome = true :=
        (lookupChild_isSome_iff_mem k c₂).mpr hmem2
      cases hx : lookupChild k c₂ with
      | none => rw [hx] at hsome2; cases hsome2
      | some v₂ => exact ih k v v₂ h1 hx

theorem equivC_nodup_left {c₁ c₂ : List (Str × DocTreeNode)}
    (h : EquivC c₁ c₂) : NodupDeepC c₁ :=
  equivT_nodup_left h

theorem insertDoc_keys (d : Doc) (s : Str) (rest : List Str)
    (ch : List (Str × DocTreeNode)) (pre : Str) :
    (insertDoc d ch pre (s :: rest)).1.map Prod.fst =
      ch.map Prod.fst ++ (if (lookupChild s ch).isSome then [] else [s]) := by
  cases rest with
  | nil =>
      cases hold : lookupChild s ch with
      | none => simp [insertDoc, hold]
      | some v =>
          cases v with
          | folder c => simp [insertDoc, hold]
          | leaf e => simp [insertDoc, hold]
  | cons s2 rest2 =>
      cases hold : lookupChild s ch with
      | none => simp [insertDoc, hold]
      | some v =>
          cases v with
          | folder sub => simp [insertDoc, hold, setEntry_keys]
          | leaf e => simp [insertDoc, hold, setEntry_keys]

theorem mem_setEntry {s : Str} {v : DocTreeNode} {e : Str × DocTreeNode} :
    ∀ {l : List (Str × DocTreeNode)}, e ∈ setEntry s v l →
      (e ∈ l ∧ e.1 ≠ s) ∨ e = (s, v) := by
  intro l
  induction l with
  | nil => intro h; cases h
  | cons e0 rest ih =>
      obtain ⟨k', w⟩ := e0
      rw [setEntry_cons]
      intro h
      rcases List.mem_cons.mp h with heq | hmem
      · by_cases hk : k' = s
        · rw [if_pos hk] at heq
          exact Or.inr heq
        · rw [if_neg hk] at heq
          subst heq
          exact Or.inl ⟨List.mem_cons_self _ _, hk⟩
      · rcases ih hmem with ⟨h1, h2⟩ | h1
        · exact Or.inl ⟨List.mem_cons_of_mem _ h1, h2⟩
        · exact Or.inr h1

theorem nodup_keys_append_new {ch : List (Str × DocTreeNode)} {s : Str}
    (v : DocTreeNode) (hnd : (ch.map Prod.fst).Nodup)
    (hnew : lookupChild s ch = none) :
    ((ch ++ [(s, v)]).map Prod.fst).Nodup := by
  rw [List.map_append]
  apply List.Nodup.append hnd (List.nodup_singleton s)
  intro x hx hx'
  rw [List.mem_singleton] at hx'
  subst hx'
  have : (lookupChild x ch).isSome = true :=
    (lookupChild_isSome_iff_mem x ch).mpr hx
  rw [hnew] at this
  cases this

theorem nodupDeep_insertDoc (d : Doc) :
    ∀ (segs : List Str) (ch : List (Str × DocTreeNode)) (pre : Str),
      NodupDeepC ch → NodupDeepC (insertDoc d ch pre segs).1 := by
  intro segs
  induction segs with
  | nil => intro ch pre h; exact h
  | cons s rest ih =>
      intro ch pre h
      obtain ⟨hnd, hmem⟩ : (ch.map Prod.fst).Nodup ∧ ∀ e ∈ ch, NodupDeep e.2 := by
        cases h with
        | folder _ hnd hmem => exact ⟨hnd, hmem⟩
      cases rest with
      | nil =>
          cases hold : lookupChild s ch with
          | none =>
              have hch : (insertDoc d ch pre [s]).1 = ch ++ [(s, .leaf d)] := by
                simp [insertDoc, hold]
              rw [hch]
              refine NodupDeep.folder _ (nodup_keys_append_new _ hnd hold) ?_
              intro e he
              rcases List.mem_append.mp he with he | he
              · exact hmem e he
              · rw [List.mem_singleton] at he
                subst he
                exact NodupDeep.leaf d
          | some v =>
              have hch : (insertDoc d ch pre [s]).1 = ch := by
                cases v with
                | folder c => simp [insertDoc, hold]
                | leaf e => simp [insertDoc, hold]
              rw [hch]
              exact h
      | cons s2 rest2 =>
          cases hold : lookupChild s ch with
          | none =>
              have hch : (insertDoc d ch pre (s :: s2 :: rest2)).1 =
                  ch ++ [(s, .folder (insertDoc d [] (joinStep pre s) (s2 :: rest2)).1)] := by
                simp [insertDoc, hold]
              rw [hch]
              refine NodupDeep.folder _ (nodup_keys_append_new _ hnd hold) ?_
              intro e he
              rcases List.mem_append.mp he with he | he
              · exact hmem e he
              · rw [List.mem_singleton] at he
                subst he
                exact ih [] (joinStep pre s) nodupDeepC_nil
          | some v =>
              cases v with
              | folder sub =>
                  have hch : (insertDoc d ch pre (s :: s2 :: rest2)).1 =
                      setEntry s (.folder (insertDoc d sub (joinStep pre s) (s2 :: rest2)).1) ch := by
                    simp [insertDoc, hold]
                  rw [hch]
                  refine NodupDeep.folder _ (by rw [setEntry_keys]; exact hnd) ?_
                  intro e he
                  rcases mem_setEntry he with ⟨h1, _⟩ | h1
                  · exact hmem e h1
                  · subst h1
                    exact ih sub (joinStep pre s) (nodupDeep_of_lookup h hold)
              | leaf e0 =>
                  have hch : (insertDoc d ch pre (s :: s2 :: rest2)).1 =
                      setEntry s (.folder (insertDoc d [] (joinStep pre s) (s2 :: rest2)).1) ch := by
                    simp [insertDoc, hold]
                  rw [hch]
                  refine NodupDeep.folder _ (by rw [setEntry_keys]; exact hnd) ?_
                  intro e he
                  rcases mem_setEntry he with ⟨h1, _⟩ | h1
                  · exact hmem e h1
                  · subst h1
                    exact ih [] (joinStep pre s) nodupDeepC_nil

theorem equivC_elim {c₁ c₂ : List (Str × DocTreeNode)} (h : EquivC c₁ c₂) :
    (c₁.map Prod.fst).Perm (c₂.map Prod.fst) ∧
    (c₁.map Prod.fst).Nodup ∧ (c₂.map Prod.fst).Nodup ∧
    ∀ k v₁ v₂, lookupChild k c₁ = some v₁ → lookupChild k c₂ = some v₂ →
      EquivT v₁ v₂ := by
  cases h with
  | folder _ _ hkeys hnd₁ hnd₂ hval => exact ⟨hkeys, hnd₁, hnd₂, hval⟩

theorem equivC_lookup_none {c₁ c₂ : List (Str × DocTreeNode)} {s : Str}
    (h : EquivC c₁ c₂) (hold : lookupChild s c₁ = none) :
    lookupChild s c₂ = none := by
  obtain ⟨hkeys, _, _, _⟩ := equivC_elim h
  cases hx : lookupChild s c₂ with
  | none => rfl
  | some v =>
      have hmem : s ∈ c₂.map Prod.fst :=
        (lookupChild_isSome_iff_mem s c₂).mp (by rw [hx]; rfl)
      have hmem1 : s ∈ c₁.map Prod.fst := hkeys.mem_iff.mpr hmem
      have : (lookupChild s c₁).isSome = true :=
        (lookupChild_isSome_iff_mem s c₁).mpr hmem1
      rw [hold] at this
      cases this

theorem equivC_lookup_some {c₁ c₂ : List (Str × DocTreeNode)} {s : Str}
    {v₁ : DocTreeNode} (h : EquivC c₁ c₂) (hold : lookupChild s c₁ = some v₁) :
    ∃ v₂, lookupChild s c₂ = some v₂ ∧ EquivT v₁ v₂ := by
  obtain ⟨hkeys, _, _, hval⟩ := equivC_elim h
  have hmem : s ∈ c₂.map Prod.fst := by
    apply hkeys.mem_iff.mp
    exact (lookupChild_isSome_iff_mem s c₁).mp (by rw [hold]; rfl)
  have hsome : (lookupChild s c₂).isSome = true :=
    (lookupChild_isSome_iff_mem s c₂).mpr hmem
  cases hx : lookupChild s c₂ with
  | none => rw [hx] at hsome; cases hsome
  | some v₂ => exact ⟨v₂, rfl, hval s v₁ v₂ hold hx⟩

theorem nodupDeep_headUpdate_none (d : Doc) (cur : Str) (rest : List Str) :
    NodupDeep (headUpdate d cur rest none) := by
  cases rest with
  | nil => exact NodupDeep.leaf d
  | cons r rs =>
      rw [headUpdate_cons_none]
      exact nodupDeep_insertDoc d (r :: rs) [] cur nodupDeepC_nil

theorem insertDoc_equivC (d : Doc) :
    ∀ (segs : List Str) (c₁ c₂ : List (Str × DocTreeNode)) (pre : Str),
      EquivC c₁ c₂ →
      EquivC (insertDoc d c₁ pre segs).1 (insertDoc d c₂ pre segs).1 := by
  intro segs
  induction segs with
  | nil => intro c₁ c₂ pre h; exact h
  | cons s rest ih =>
      intro c₁ c₂ pre h
      obtain ⟨hkeys, hnd₁, hnd₂, hval⟩ := equivC_elim h
      have hdeep₁ : NodupDeepC c₁ := equivC_nodup_left h
      have hdeep₂ : NodupDeepC c₂ := equivC_nodup_left (equivT_symm h)
      have hndr₁ : NodupDeepC (insertDoc d c₁ pre (s :: rest)).1 :=
        nodupDeep_insertDoc d _ c₁ pre hdeep₁
      have hndr₂ : NodupDeepC (insertDoc d c₂ pre (s :: rest)).1 :=
        nodupDeep_insertDoc d _ c₂ pre hdeep₂
      have hk1 := insertDoc_keys d s rest c₁ pre
      have hk2 := insertDoc_keys d s rest c₂ pre
      have hsome_eq : (lookupChild s c₁).isSome = (lookupChild s c₂).isSome := by
        cases hx : lookupChild s c₁ with
        | none => rw [equivC_lookup_none h hx]
        | some v =>
            obtain ⟨v₂, hv₂, _⟩ := equivC_lookup_some h hx
            rw [hv₂]
            rfl
      refine EquivT.folder _ _ ?_ (nodupDeepC_keys hndr₁) (nodupDeepC_keys hndr₂) ?_
      · rw [hk1, hk2, hsome_eq]
        exact hkeys.append (List.Perm.refl _)
      · intro k v₁ v₂ h1 h2
        rw [insertDoc_lookup] at h1 h2
        by_cases hks : k = s
        · rw [if_pos hks] at h1 h2
          cases hold1 : lookupChild s c₁ with
          | none =>
              have hold2 := equivC_lookup_none h hold1
              rw [hold1] at h1
              rw [hold2] at h2
              cases h1
              cases h2
              exact equivT_refl (nodupDeep_headUpdate_none d (joinStep pre s) rest)
          | some w₁ =>
              obtain ⟨w₂, hold2, hw⟩ := equivC_lookup_some h hold1
              rw [hold1] at h1
              rw [hold2] at h2
              cases h1
              cases h2
              cases rest with
              | nil =>
                  simp only [headUpdate_nil_some]
                  exact hw
              | cons r rs =>
                  cases w₁ with
                  | leaf e =>
                      have hw2 : w₂ = .leaf e := by
                        cases hw
                        rfl
                      subst hw2
                      simp only [headUpdate_cons_leaf]
                      exact equivT_refl
                        (nodupDeep_insertDoc d (r :: rs) [] (joinStep pre s)
                          nodupDeepC_nil)
                  | folder sub₁ =>
                      obtain ⟨sub₂, hw2, hsub⟩ := equivT_folder_inv hw
                      subst hw2
                      simp only [headUpdate_cons_folder]
                      exact ih sub₁ sub₂ (joinStep pre s) hsub
        · rw [if_neg hks] at h1 h2
          exact hval k v₁ v₂ h1 h2

theorem insertDoc_comm (dA dB : Doc) :
    ∀ (segsA segsB : List Str) (c : List (Str × DocTreeNode)) (pre : Str),
      NodupDeepC c → segsA ≠ segsB →
      EquivC (insertDoc dA (insertDoc dB c pre segsB).1 pre segsA).1
             (insertDoc dB (insertDoc dA c pre segsA).1 pre segsB).1 := by
  intro segsA
  induction segsA with
  | nil =>
      intro segsB c pre hnd _
      exact equivT_refl (nodupDeep_insertDoc dB segsB c pre hnd)
  | cons a restA ih =>
      intro segsB c pre hnd hne
      cases segsB with
      | nil =>
          exact equivT_refl (nodupDeep_insertDoc dA (a :: restA) c pre hnd)
      | cons b restB =>
          have hndB : NodupDeepC (insertDoc dB c pre (b :: restB)).1 :=
            nodupDeep_insertDoc dB _ c pre hnd
          have hndA : NodupDeepC (insertDoc dA c pre (a :: restA)).1 :=
            nodupDeep_insertDoc dA _ c pre hnd
          have hndL : NodupDeepC
              (insertDoc dA (insertDoc dB c pre (b :: restB)).1 pre (a :: restA)).1 :=
            nodupDeep_insertDoc dA _ _ pre hndB
          have hndR : NodupDeepC
              (insertDoc dB (insertDoc dA c pre (a :: restA)).1 pre (b :: restB)).1 :=
            nodupDeep_insertDoc dB _ _ pre hndA
          by_cases hab : a = b
          · subst hab
            have hrne : restA ≠ restB := fun h => hne (by rw [h])
            have hlkB : lookupChild a (insertDoc dB c pre (a :: restB)).1 =
                some (headUpdate dB (joinStep pre a) restB (lookupChild a c)) := by
              rw [insertDoc_lookup, if_pos rfl]
            have hlkA : lookupChild a (insertDoc dA c pre (a :: restA)).1 =
                some (headUpdate dA (joinStep pre a) restA (lookupChild a c)) := by
              rw [insertDoc_lookup, if_pos rfl]
            refine EquivT.folder _ _ ?_ (nodupDeepC_keys hndL) (nodupDeepC_keys hndR) ?_
            · rw [insertDoc_keys dA a restA _ pre, insertDoc_keys dB a restB c pre,
                insertDoc_keys dB a restB _ pre, insertDoc_keys dA a restA c pre,
                hlkB, hlkA]
              simp only [Option.isSome_some, if_true, List.append_nil]
              exact List.Perm.refl _
            · intro k v₁ v₂ h1 h2
              rw [insertDoc_lookup] at h1 h2
              by_cases hk : k = a
              · subst hk
                rw [if_pos rfl, hlkB] at h1
                rw [if_pos rfl, hlkA] at h2
                cases h1
                cases h2
                cases restA with
                | nil =>
                    cases restB with
                    | nil => exact absurd rfl hrne
                    | cons rB rsB =>
                        cases hold : lookupChild k c with
                        | none =>
                            simp only [headUpdate_nil_none, headUpdate_nil_some,
                              headUpdate_cons_none, headUpdate_cons_leaf]
                            exact equivT_refl
                              (nodupDeep_insertDoc dB (rB :: rsB) []
                                (joinStep pre k) nodupDeepC_nil)
                        | some w =>
                            cases w with
                            | leaf e =>
                                simp only [headUpdate_nil_some,
                                  headUpdate_cons_leaf]
                                exact equivT_refl
                                  (nodupDeep_insertDoc dB (rB :: rsB) []
                                    (joinStep pre k) nodupDeepC_nil)
                            | folder sub =>
                                simp only [headUpdate_nil_some,
                                  headUpdate_cons_folder]
                                exact equivT_refl
                                  (nodupDeep_insertDoc dB (rB :: rsB) sub
                                    (joinStep pre k)
                                    (nodupDeep_of_lookup hnd hold))
                | cons rA rsA =>
                    cases restB with
                    | nil =>
                        cases hold : lookupChild k c with
                        | none =>
                            simp only [headUpdate_nil_none, headUpdate_nil_some,
                              headUpdate_cons_none, headUpdate_cons_leaf]
                            exact equivT_refl
                              (nodupDeep_insertDoc dA (rA :: rsA) []
                                (joinStep pre k) nodupDeepC_nil)
                        | some w =>
                            cases w with
                            | leaf e =>
                                simp only [headUpdate_nil_some,
                                  headUpdate_cons_leaf]
                                exact equivT_refl
                                  (nodupDeep_insertDoc dA (rA :: rsA) []
                                    (joinStep pre k) nodupDeepC_nil)
                            | folder sub =>
                                simp only [headUpdate_nil_some,
                                  headUpdate_cons_folder]
                                exact equivT_refl
                                  (nodupDeep_insertDoc dA (rA :: rsA) sub
                                    (joinStep pre k)
                                    (nodupDeep_of_lookup hnd hold))
                    | cons rB rsB =>
                        cases hold : lookupChild k c with
                        | none =>
                            simp only [headUpdate_cons_none,
                              headUpdate_cons_folder]
                            exact ih (rB :: rsB) [] (joinStep pre k)
                              nodupDeepC_nil hrne
                        | some w =>
                            cases w with
                            | leaf e =>
                                simp only [headUpdate_cons_leaf,
                                  headUpdate_cons_folder]
                                exact ih (rB :: rsB) [] (joinStep pre k)
                                  nodupDeepC_nil hrne
                            | folder sub =>
                                simp only [headUpdate_cons_folder]
                                exact ih (rB :: rsB) sub (joinStep pre k)
                                  (nodupDeep_of_lookup hnd hold) hrne
              · rw [if_neg hk, insertDoc_lookup, if_neg hk] at h1
                rw [if_neg hk, insertDoc_lookup, if_neg hk] at h2
                rw [h1] at h2
                cases h2
                exact equivT_refl (nodupDeep_of_lookup hnd h1)
          · have hlkaB : lookupChild a (insertDoc dB c pre (b :: restB)).1 =
                lookupChild a c := by
              rw [insertDoc_lookup, if_neg hab]
            have hlkbA : lookupChild b (insertDoc dA c pre (a :: restA)).1 =
                lookupChild b c := by
              rw [insertDoc_lookup, if_neg (fun h : b = a => hab h.symm)]
            refine EquivT.folder _ _ ?_ (nodupDeepC_keys hndL) (nodupDeepC_keys hndR) ?_
            · rw [insertDoc_keys dA a restA _ pre, insertDoc_keys dB b restB c pre,
                insertDoc_keys dB b restB _ pre, insertDoc_keys dA a restA c pre,
                hlkaB, hlkbA]
              rw [List.append_assoc, List.append_assoc]
              exact List.Perm.append_left _ (List.perm_append_comm)
            · intro k v₁ v₂ h1 h2
              have hv₁ : NodupDeep v₁ := nodupDeep_of_lookup hndL h1
              rw [insertDoc_lookup] at h1 h2
              by_cases hka : k = a
              · subst hka
                rw [if_pos rfl, hlkaB] at h1
                rw [if_neg hab, insertDoc_lookup, if_pos rfl] at h2
                cases h1
                cases h2
                exact equivT_refl hv₁
              · by_cases hkb : k = b
                · subst hkb
                  rw [if_neg hka, insertDoc_lookup, if_pos rfl] at h1
                  rw [if_pos rfl, hlkbA] at h2
                  cases h1
                  cases h2
                  exact equivT_refl hv₁
                · rw [if_neg hka, insertDoc_lookup, if_neg hkb] at h1
                  rw [if_neg hkb, insertDoc_lookup, if_neg hka] at h2
                  rw [h1] at h2
                  cases h2
                  exact equivT_refl (nodupDeep_of_lookup hnd h1)

theorem buildTree_children_eq :
    ∀ (C : List Doc) (acc : BuildResult),
      (C.foldl buildStep acc).children = foldChildren C acc.children := by
  intro C
  induction C with
  | nil => intro acc; rfl
  | cons d t ih =>
      intro acc
      rw [List.foldl_cons, ih]
      unfold foldChildren
      rw [List.foldl_cons]
      by_cases hwf : wellFormedSlug d.slug
      · have : (buildStep acc d).children =
            (insertDoc d acc.children [] (splitSlash d.slug)).1 := by
          simp [buildStep, hwf]
        rw [this]
        simp [hwf]
      · have : (buildStep acc d).children = acc.children := by
          simp [buildStep, hwf]
        rw [this]
        simp [hwf]

theorem nodupDeepC_foldChildren :
    ∀ (C : List Doc) (ch : List (Str × DocTreeNode)),
      NodupDeepC ch → NodupDeepC (foldChildren C ch) := by
  intro C
  induction C with
  | nil => intro ch h; exact h
  | cons d t ih =>
      intro ch h
      unfold foldChildren
      rw [List.foldl_cons]
      by_cases hwf : wellFormedSlug d.slug
      · simp only [hwf, if_true]
        exact ih _ (nodupDeep_insertDoc d _ ch [] h)
      · simp only [hwf, if_false]
        exact ih _ h

theorem foldChildren_congr :
    ∀ (C : List Doc) (ch₁ ch₂ : List (Str × DocTreeNode)),
      EquivC ch₁ ch₂ → EquivC (foldChildren C ch₁) (foldChildren C ch₂) := by
  intro C
  induction C with
  | nil => intro ch₁ ch₂ h; exact h
  | cons d t ih =>
      intro ch₁ ch₂ h
      unfold foldChildren
      rw [List.foldl_cons, List.foldl_cons]
      by_cases hwf : wellFormedSlug d.slug
      · simp only [hwf, if_true]
        exact ih _ _ (insertDoc_equivC d _ ch₁ ch₂ [] h)
      · simp only [hwf, if_false]
        exact ih _ _ h

theorem splitSlash_injective {s t : Str} (h : splitSlash s = splitSlash t) : s = t := by
  have h1 := joinSegs_splitSlash s
  have h2 := joinSegs_splitSlash t
  rw [← h1, ← h2, h]

theorem foldChildren_perm :
    ∀ {C C' : List Doc}, C.Perm C' → (C.map Doc.slug).Nodup →
      ∀ ch₁ ch₂, EquivC ch₁ ch₂ →
        EquivC (foldChildren C ch₁) (foldChildren C' ch₂) := by
  intro C C' hp
  induction hp with
  | nil => intro _ ch₁ ch₂ h; exact h
  | cons x hlp ih =>
      intro hnd ch₁ ch₂ h
      unfold foldChildren
      rw [List.foldl_cons, List.foldl_cons]
      rw [List.map_cons] at hnd
      have hnd' := (List.nodup_cons.mp hnd).2
      by_cases hwf : wellFormedSlug x.slug
      · simp only [hwf, if_true]
        exact ih hnd' _ _ (insertDoc_equivC x _ ch₁ ch₂ [] h)
      · simp only [hwf, if_false]
        exact ih hnd' _ _ h
  | swap x y l =>
      intro hnd ch₁ ch₂ h
      have hxy : y.slug ≠ x.slug := by
        rw [List.map_cons, List.map_cons, List.nodup_cons] at hnd
        intro hcon
        exact hnd.1 (by rw [hcon]; exact List.mem_cons_self _ _)
      have hnds : (l.map Doc.slug).Nodup := by
        rw [List.map_cons, List.map_cons, List.nodup_cons, List.nodup_cons] at hnd
        exact hnd.2.2
      have hdeep₁ : NodupDeepC ch₁ := equivC_nodup_left h
      unfold foldChildren
      rw [List.foldl_cons, List.foldl_cons, List.foldl_cons, List.foldl_cons]
      have hstep : EquivC
          ((fun ch (d : Doc) =>
            if wellFormedSlug d.slug then (insertDoc d ch [] (splitSlash d.slug)).1
            else ch)
            ((fun ch (d : Doc) =>
              if wellFormedSlug d.slug then (insertDoc d ch [] (splitSlash d.slug)).1
              else ch) ch₁ y) x)
          ((fun ch (d : Doc) =>
            if wellFormedSlug d.slug then (insertDoc d ch [] (splitSlash d.slug)).1
            else ch)
            ((fun ch (d : Doc) =>
              if wellFormedSlug d.slug then (insertDoc d ch [] (splitSlash d.slug)).1
              else ch) ch₂ x) y) := by
        by_cases hwx : wellFormedSlug x.slug <;> by_cases hwy : wellFormedSlug y.slug
        · simp only [hwx, hwy, if_true]
          have hsegs : splitSlash x.slug ≠ splitSlash y.slug := by
            intro hcon
            exact hxy (splitSlash_injective hcon).symm
          have hcomm := insertDoc_comm x y (splitSlash x.slug) (splitSlash y.slug)
            ch₁ [] hdeep₁ hsegs
          refine equivT_trans hcomm ?_
          exact insertDoc_equivC y _ _ _ []
            (insertDoc_equivC x _ _ _ [] h)
        · simp only [hwx, hwy, if_true, if_false]
          exact insertDoc_equivC x _ ch₁ ch₂ [] h
        · simp only [hwx, hwy, if_true, if_false]
          exact insertDoc_equivC y _ ch₁ ch₂ [] h
        · simp only [hwx, hwy, if_false]
          exact h
      exact foldChildren_congr l _ _ hstep
  | trans h12 h23 ih12 ih23 =>
      intro hnd ch₁ ch₂ h
      have hdeep₁ : NodupDeepC ch₁ := equivC_nodup_left h
      have hnd2 := ((h12.map Doc.slug).nodup_iff).mp hnd
      exact equivT_trans
        (ih12 hnd ch₁ ch₁ (equivT_refl hdeep₁))
        (ih23 hnd2 ch₁ ch₂ h)

theorem provOK_nil (C : List Doc) (p : List Str) : ProvOK C p [] := by
  constructor
  · intro k dd h
    cases h
  · intro k sub h
    cases h

theorem provOK_insertDoc {C : List Doc} {d : Doc} (hd : d ∈ C) :
    ∀ (segs : List Str) (ch : List (Str × DocTreeNode)) (p : List Str) (pre : Str),
      ProvOK C p ch → splitSlash d.slug = p ++ segs →
      ProvOK C p (insertDoc d ch pre segs).1 := by
  intro segs
  induction segs with
  | nil => intro ch p pre h _; exact h
  | cons s rest ih =>
      intro ch p pre h hsplit
      obtain ⟨hleaf, hfold⟩ : (∀ k dd, (k, DocTreeNode.leaf dd) ∈ ch →
          dd ∈ C ∧ splitSlash dd.slug = p ++ [k]) ∧
          (∀ k sub, (k, DocTreeNode.folder sub) ∈ ch → ProvOK C (p ++ [k]) sub) := by
        cases h with
        | mk _ _ hleaf hfold => exact ⟨hleaf, hfold⟩
      have hsplit' : splitSlash d.slug = (p ++ [s]) ++ rest := by
        rw [hsplit, List.append_assoc]
        rfl
      cases rest with
      | nil =>
          cases hold : lookupChild s ch with
          | none =>
              have hch : (insertDoc d ch pre [s]).1 = ch ++ [(s, .leaf d)] := by
                simp [insertDoc, hold]
              rw [hch]
              constructor
              · intro k dd hmem
                rcases List.mem_append.mp hmem with hmem | hmem
                · exact hleaf k dd hmem
                · rw [List.mem_singleton] at hmem
                  cases hmem
                  exact ⟨hd, by rw [hsplit]⟩
              · intro k sub hmem
                rcases List.mem_append.mp hmem with hmem | hmem
                · exact hfold k sub hmem
                · rw [List.mem_singleton] at hmem
                  cases hmem
          | some v =>
              have hch : (insertDoc d ch pre [s]).1 = ch := by
                cases v with
                | folder c => simp [insertDoc, hold]
                | leaf e => simp [insertDoc, hold]
              rw [hch]
              exact h
      | cons s2 rest2 =>
          cases hold : lookupChild s ch with
          | none =>
              have hch : (insertDoc d ch pre (s :: s2 :: rest2)).1 =
                  ch ++ [(s, .folder (insertDoc d [] (joinStep pre s) (s2 :: rest2)).1)] := by
                simp [insertDoc, hold]
              rw [hch]
              constructor
              · intro k dd hmem
                rcases List.mem_append.mp hmem with hmem | hmem
                · exact hleaf k dd hmem
                · rw [List.mem_singleton] at hmem
                  cases hmem
              · intro k sub hmem
                rcases List.mem_append.mp hmem with hmem | hmem
                · exact hfold k sub hmem
                · rw [List.mem_singleton] at hmem
                  cases hmem
                  exact ih [] (p ++ [s]) (joinStep pre s) (provOK_nil C _) hsplit'
          | some v =>
              cases v with
              | folder sub =>
                  have hch : (insertDoc d ch pre (s :: s2 :: rest2)).1 =
                      setEntry s (.folder (insertDoc d sub (joinStep pre s) (s2 :: rest2)).1) ch := by
                    simp [insertDoc, hold]
                  rw [hch]
                  constructor
                  · intro k dd hmem
                    rcases mem_setEntry hmem with ⟨h1, _⟩ | h1
                    · exact hleaf k dd h1
                    · cases h1
                  · intro k sub' hmem
                    rcases mem_setEntry hmem with ⟨h1, _⟩ | h1
                    · exact hfold k sub' h1
                    · cases h1
                      exact ih sub (p ++ [s]) (joinStep pre s)
                        (hfold s sub (lookupChild_mem hold)) hsplit'
              | leaf e =>
                  have hch : (insertDoc d ch pre (s :: s2 :: rest2)).1 =
                      setEntry s (.folder (insertDoc d [] (joinStep pre s) (s2 :: rest2)).1) ch := by
                    simp [insertDoc, hold]
                  rw [hch]
                  constructor
                  · intro k dd hmem
                    rcases mem_setEntry hmem with ⟨h1, _⟩ | h1
                    · exact hleaf k dd h1
                    · cases h1
                  · intro k sub' hmem
                    rcases mem_setEntry hmem with ⟨h1, _⟩ | h1
                    · exact hfold k sub' h1
                    · cases h1
                      exact ih [] (p ++ [s]) (joinStep pre s) (provOK_nil C _) hsplit'

theorem provOK_foldChildren (C : List Doc) :
    ∀ (L : List Doc) (ch : List (Str × DocTreeNode)),
      (∀ x ∈ L, x ∈ C) → ProvOK C [] ch → ProvOK C [] (foldChildren L ch) := by
  intro L
  induction L with
  | nil => intro ch _ h; exact h
  | cons d t ih =>
      intro ch hsub h
      unfold foldChildren
      rw [List.foldl_cons]
      by_cases hwf : wellFormedSlug d.slug
      · simp only [hwf, if_true]
        refine ih _ (fun x hx => hsub x (List.mem_cons_of_mem _ hx)) ?_
        exact provOK_insertDoc (hsub d (List.mem_cons_self _ _))
          (splitSlash d.slug) ch [] [] h (by rw [List.nil_append])
      · simp only [hwf, if_false]
        exact ih _ (fun x hx => hsub x (List.mem_cons_of_mem _ hx)) h

theorem idxOK_of_provOK {C : List Doc}
    (hidx : ∀ d₁ ∈ C, ∀ d₂ ∈ C,
      (splitSlash d₁.slug).dropLast = (splitSlash d₂.slug).dropLast →
      d₁.index = d₂.index → d₁ = d₂) :
    ∀ {p : List Str} {c : List (Str × DocTreeNode)},
      ProvOK C p c → IdxOK (.folder c) := by
  intro p c h
  induction h with
  | mk p c hleaf hfold ih =>
      constructor
      · intro k₁ d₁ k₂ d₂ h₁ h₂ hie
        obtain ⟨hd₁, hs₁⟩ := hleaf k₁ d₁ h₁
        obtain ⟨hd₂, hs₂⟩ := hleaf k₂ d₂ h₂
        have hpar : (splitSlash d₁.slug).dropLast = (splitSlash d₂.slug).dropLast := by
          rw [hs₁, hs₂, List.dropLast_concat, List.dropLast_concat]
        have hdd := hidx d₁ hd₁ d₂ hd₂ hpar hie
        refine ⟨?_, hdd⟩
        rw [hdd] at hs₁
        rw [hs₁] at hs₂
        have h3 : ([k₁] : List Str) = [k₂] := List.append_inj_right hs₂ rfl
        injection h3 with h4
      · intro e he
        obtain ⟨k, v⟩ := e
        cases v with
        | leaf dd => exact IdxOK.leaf dd
        | folder sub => exact ih k sub he

theorem perm_cons_removeEntry {e : Str × DocTreeNode} :
    ∀ {l : List (Str × DocTreeNode)}, e ∈ l → l.Perm (e :: removeEntry e l) := by
  intro l
  induction l with
  | nil => intro h; cases h
  | cons h0 t ih =>
      intro hmem
      by_cases hh : h0 = e
      · subst hh
        rw [show removeEntry h0 (h0 :: t) = t from by simp [removeEntry]]
      · have het : e ∈ t := by
          rcases List.mem_cons.mp hmem with h' | h'
          · exact absurd h'.symm hh
          · exact h'
        rw [show removeEntry e (h0 :: t) = h0 :: removeEntry e t from by
          simp [removeEntry, hh]]
        exact ((ih het).cons h0).trans (List.Perm.swap e h0 _)

theorem lookupChild_removeEntry {e : Str × DocTreeNode} {k' : Str}
    (hne : e.1 ≠ k') :
    ∀ l : List (Str × DocTreeNode),
      lookupChild k' (removeEntry e l) = lookupChild k' l := by
  intro l
  induction l with
  | nil => rfl
  | cons h0 rest ih =>
      by_cases hh : h0 = e
      · subst hh
        rw [show removeEntry h0 (h0 :: rest) = rest from by simp [removeEntry]]
        obtain ⟨k0, v0⟩ := h0
        have : k0 ≠ k' := hne
        simp [lookupChild, this]
      · rw [show removeEntry e (h0 :: rest) = h0 :: removeEntry e rest from by
          simp [removeEntry, hh]]
        obtain ⟨k0, v0⟩ := h0
        by_cases hk : k0 = k'
        · simp [lookupChild, hk]
        · simp [lookupChild, hk, ih]

theorem perm_of_keys_perm_lookup :
    ∀ (l₁ l₂ : List (Str × DocTreeNode)),
      (l₁.map Prod.fst).Nodup →
      (l₁.map Prod.fst).Perm (l₂.map Prod.fst) →
      (∀ k v₁ v₂, lookupChild k l₁ = some v₁ → lookupChild k l₂ = some v₂ →
        v₁ = v₂) →
      l₁.Perm l₂ := by
  intro l₁
  induction l₁ with
  | nil =>
      intro l₂ _ hkeys _
      have : l₂.map Prod.fst = [] := hkeys.nil_eq.symm
      rw [List.map_eq_nil_iff] at this
      rw [this]
  | cons e t ih =>
      obtain ⟨k, v⟩ := e
      intro l₂ hnd hkeys hval
      have hlk1 : lookupChild k ((k, v) :: t) = some v := by simp [lookupChild]
      have hkmem : k ∈ l₂.map Prod.fst := by
        apply hkeys.mem_iff.mp
        rw [List.map_cons]
        exact List.mem_cons_self _ _
      have hsome : (lookupChild k l₂).isSome = true :=
        (lookupChild_isSome_iff_mem k l₂).mpr hkmem
      cases hx : lookupChild k l₂ with
      | none => rw [hx] at hsome; cases hsome
      | some v₂ =>
          have hv : v = v₂ := hval k v v₂ hlk1 hx
          subst hv
          have hmem2 : (k, v) ∈ l₂ := lookupChild_mem hx
          have hperm2 : l₂.Perm ((k, v) :: removeEntry (k, v) l₂) :=
            perm_cons_removeEntry hmem2
          rw [List.map_cons] at hnd
          have hndt := List.nodup_cons.mp hnd
          have hkeyse : (t.map Prod.fst).Perm
              ((removeEntry (k, v) l₂).map Prod.fst) := by
            have h1 : (((k, v) :: t).map Prod.fst).Perm
                (((k, v) :: removeEntry (k, v) l₂).map Prod.fst) :=
              hkeys.trans (hperm2.map Prod.fst)
            rw [List.map_cons, List.map_cons] at h1
            exact h1.cons_inv
          have hvt : ∀ k' v₁ v₂, lookupChild k' t = some v₁ →
              lookupChild k' (removeEntry (k, v) l₂) = some v₂ → v₁ = v₂ := by
            intro k' v₁ v₂' h1 h2
            have hkk : k ≠ k' := by
              intro hh
              subst hh
              have : k ∈ t.map Prod.fst :=
                (lookupChild_isSome_iff_mem k t).mp (by rw [h1]; rfl)
              exact hndt.1 this
            have h1' : lookupChild k' ((k, v) :: t) = some v₁ := by
              simp [lookupChild, hkk, h1]
            have h2' : lookupChild k' l₂ = some v₂' := by
              rw [← lookupChild_removeEntry
                (show ((k, v) : Str × DocTreeNode).1 ≠ k' from hkk) l₂]
              exact h2
            exact hval k' v₁ v₂' h1' h2'
          have hpt : t.Perm (removeEntry (k, v) l₂) := ih _ hndt.2 hkeyse hvt
          exact (hpt.cons (k, v)).trans hperm2.symm

theorem eq_of_perm_of_sorted_mem {α : Type} {r : α → α → Prop} :
    ∀ {l₁ l₂ : List α}, l₁.Perm l₂ → l₁.Pairwise r → l₂.Pairwise r →
      (∀ a ∈ l₁, ∀ b ∈ l₁, r a b → r b a → a = b) → l₁ = l₂ := by
  intro l₁
  induction l₁ with
  | nil =>
      intro l₂ hp _ _ _
      exact hp.nil_eq
  | cons a t ih =>
      intro l₂ hp hs₁ hs₂ hanti
      cases l₂ with
      | nil => cases hp.symm.nil_eq
      | cons b t₂ =>
          have hab : a = b := by
            by_cases h : a = b
            · exact h
            · have ha2 : a ∈ b :: t₂ := hp.mem_iff.mp (List.mem_cons_self a t)
              have hb1 : b ∈ a :: t := hp.mem_iff.mpr (List.mem_cons_self b t₂)
              have ha2' : a ∈ t₂ := by
                rcases List.mem_cons.mp ha2 with h' | h'
                · exact absurd h' h
                · exact h'
              have hb1' : b ∈ t := by
                rcases List.mem_cons.mp hb1 with h' | h'
                · exact absurd h'.symm h
                · exact h'
              have hrab : r a b := (List.pairwise_cons.mp hs₁).1 b hb1'
              have hrba : r b a := (List.pairwise_cons.mp hs₂).1 a ha2'
              exact hanti a (List.mem_cons_self a t) b
                (List.mem_cons_of_mem a hb1') hrab hrba
          subst hab
          have hp' : t.Perm t₂ := hp.cons_inv
          have hrec := ih hp' (List.pairwise_cons.mp hs₁).2
            (List.pairwise_cons.mp hs₂).2
            (fun x hx y hy => hanti x (List.mem_cons_of_mem a hx) y
              (List.mem_cons_of_mem a hy))
          rw [hrec]

theorem orderedChildren_keys (lc : Str → Str → Int) :
    ∀ c : List (Str × DocTreeNode),
      (orderedChildren lc c).map Prod.fst = c.map Prod.fst := by
  intro c
  induction c with
  | nil => rfl
  | cons e rest ih =>
      obtain ⟨k, v⟩ := e
      rw [show orderedChildren lc ((k, v) :: rest) =
        (k, orderedNode lc v) :: orderedChildren lc rest from rfl]
      rw [List.map_cons, List.map_cons, ih]

theorem lookupChild_orderedChildren (lc : Str → Str → Int) (k : Str) :
    ∀ c : List (Str × DocTreeNode),
      lookupChild k (orderedChildren lc c) =
        (lookupChild k c).map (orderedNode lc) := by
  intro c
  induction c with
  | nil => rfl
  | cons e rest ih =>
      obtain ⟨k', v⟩ := e
      rw [show orderedChildren lc ((k', v) :: rest) =
        (k', orderedNode lc v) :: orderedChildren lc rest from rfl]
      by_cases hk : k' = k
      · simp [lookupChild, hk]
      · simp [lookupChild, hk, ih]

theorem mem_orderedChildren {lc : Str → Str → Int} {e' : Str × DocTreeNode} :
    ∀ {c : List (Str × DocTreeNode)}, e' ∈ orderedChildren lc c →
      ∃ e, e ∈ c ∧ e' = (e.1, orderedNode lc e.2) := by
  intro c
  induction c with
  | nil => intro h; cases h
  | cons e rest ih =>
      obtain ⟨k, v⟩ := e
      rw [show orderedChildren lc ((k, v) :: rest) =
        (k, orderedNode lc v) :: orderedChildren lc rest from rfl]
      intro h
      rcases List.mem_cons.mp h with h | h
      · exact ⟨(k, v), List.mem_cons_self _ _, h⟩
      · obtain ⟨e0, he0, heq⟩ := ih h
        exact ⟨e0, List.mem_cons_of_mem _ he0, heq⟩

theorem isDocNode_orderedNode (lc : Str → Str → Int) (v : DocTreeNode) :
    isDocNode (orderedNode lc v) = isDocNode v := by
  cases v with
  | leaf d => rfl
  | folder c => rfl

theorem entry_eq_of_nodup {c : List (Str × DocTreeNode)} {k : Str}
    {x y : DocTreeNode} (hnd : (c.map Prod.fst).Nodup)
    (hx : (k, x) ∈ c) (hy : (k, y) ∈ c) : x = y := by
  have h1 := lookupChild_of_mem_nodup hx hnd
  have h2 := lookupChild_of_mem_nodup hy hnd
  rw [h1] at h2
  cases h2
  rfl

theorem folderRel_isTotal (lc : Str → Str → Int)
    (htot : ∀ a b : Str, lc a b ≤ 0 ∨ lc b a ≤ 0) :
    IsTotal (Str × DocTreeNode) (folderRel lc) := by
  constructor
  intro a b
  unfold folderRel
  by_cases h : folderOrder a.1 = folderOrder b.1
  · rw [if_pos h, if_pos h.symm]
    exact htot a.1 b.1
  · rw [if_neg h, if_neg (fun hh => h hh.symm)]
    omega

theorem folderRel_isTrans (lc : Str → Str → Int)
    (htr : ∀ a b c : Str, lc a b ≤ 0 → lc b c ≤ 0 → lc a c ≤ 0) :
    IsTrans (Str × DocTreeNode) (folderRel lc) := by
  constructor
  intro a b c hab hbc
  unfold folderRel at *
  by_cases h1 : folderOrder a.1 = folderOrder b.1
  · rw [if_pos h1] at hab
    by_cases h2 : folderOrder b.1 = folderOrder c.1
    · rw [if_pos h2] at hbc
      rw [if_pos (h1.trans h2)]
      exact htr a.1 b.1 c.1 hab hbc
    · rw [if_neg h2] at hbc
      rw [if_neg (fun hh => h2 (by rw [← h1, hh]))]
      omega
  · rw [if_neg h1] at hab
    by_cases h2 : folderOrder b.1 = folderOrder c.1
    · rw [if_neg (fun hh => h1 (by rw [hh, ← h2]))]
      omega
    · rw [if_neg h2] at hbc
      by_cases h3 : folderOrder a.1 = folderOrder c.1
      · exfalso
        omega
      · rw [if_neg h3]
        omega

theorem mem_docPart {lc : Str → Str → Int} {c : List (Str × DocTreeNode)}
    {x : Str × DocTreeNode}
    (hx : x ∈ sortDocs ((orderedChildren lc c).filter (fun e => isDocNode e.2))) :
    ∃ k d, x = (k, DocTreeNode.leaf d) ∧ (k, DocTreeNode.leaf d) ∈ c := by
  have hx1 : x ∈ (orderedChildren lc c).filter (fun e => isDocNode e.2) :=
    (sortDocs_perm _).mem_iff.mp hx
  obtain ⟨hx2, hx3⟩ := List.mem_filter.mp hx1
  obtain ⟨e, he, heq⟩ := mem_orderedChildren hx2
  have hdoc : isDocNode e.2 = true := by
    rw [← isDocNode_orderedNode lc e.2]
    rw [heq] at hx3
    exact hx3
  cases hv : e.2 with
  | folder sub => rw [hv] at hdoc; cases hdoc
  | leaf d =>
      refine ⟨e.1, d, ?_, ?_⟩
      · rw [heq, hv]
        rfl
      · rw [← hv]
        exact he

theorem mem_folderPart {lc : Str → Str → Int} {c : List (Str × DocTreeNode)}
    {x : Str × DocTreeNode}
    (hx : x ∈ sortFolders lc ((orderedChildren lc c).filter
      (fun e => !isDocNode e.2))) :
    x ∈ orderedChildren lc c :=
  (List.mem_filter.mp ((List.perm_insertionSort _ _).mem_iff.mp hx)).1

theorem folderRel_key_eq {lc : Str → Str → Int}
    (hanti : ∀ a b : Str, lc a b ≤ 0 → lc b a ≤ 0 → a = b)
    {x y : Str × DocTreeNode}
    (h1 : folderRel lc x y) (h2 : folderRel lc y x) : x.1 = y.1 := by
  unfold folderRel at h1 h2
  by_cases ho : folderOrder x.1 = folderOrder y.1
  · rw [if_pos ho] at h1
    rw [if_pos ho.symm] at h2
    exact hanti x.1 y.1 h1 h2
  · rw [if_neg ho] at h1
    rw [if_neg (fun hh => ho hh.symm)] at h2
    exact absurd (by omega : folderOrder x.1 = folderOrder y.1) ho

theorem ordered_eq_of_equiv (lc : Str → Str → Int)
    (htot : ∀ a b : Str, lc a b ≤ 0 ∨ lc b a ≤ 0)
    (htr : ∀ a b c : Str, lc a b ≤ 0 → lc b c ≤ 0 → lc a c ≤ 0)
    (hanti : ∀ a b : Str, lc a b ≤ 0 → lc b a ≤ 0 → a = b) :
    ∀ {t₁ t₂ : DocTreeNode}, EquivT t₁ t₂ → IdxOK t₁ →
      orderedNode lc t₁ = orderedNode lc t₂ := by
  intro t₁ t₂ h
  induction h with
  | leaf d => intro _; rfl
  | folder c₁ c₂ hkeys hnd₁ hnd₂ hval ih =>
      intro hidx
      obtain ⟨hpairs, hmemIdx⟩ :
          (∀ k₁ d₁ k₂ d₂, (k₁, DocTreeNode.leaf d₁) ∈ c₁ →
            (k₂, DocTreeNode.leaf d₂) ∈ c₁ → d₁.index = d₂.index →
            k₁ = k₂ ∧ d₁ = d₂) ∧ (∀ e ∈ c₁, IdxOK e.2) := by
        cases hidx with
        | folder _ h1 h2 => exact ⟨h1, h2⟩
      have hperm : (orderedChildren lc c₁).Perm (orderedChildren lc c₂) := by
        apply perm_of_keys_perm_lookup
        · rw [orderedChildren_keys]
          exact hnd₁
        · rw [orderedChildren_keys, orderedChildren_keys]
          exact hkeys
        · intro k v₁' v₂' h1 h2
          rw [lookupChild_orderedChildren] at h1 h2
          cases hx1 : lookupChild k c₁ with
          | none => rw [hx1] at h1; cases h1
          | some v₁ =>
              rw [hx1] at h1
              cases hx2 : lookupChild k c₂ with
              | none => rw [hx2] at h2; cases h2
              | some v₂ =>
                  rw [hx2] at h2
                  cases h1
                  cases h2
                  exact ih k v₁ v₂ hx1 hx2
                    (hmemIdx (k, v₁) (lookupChild_mem hx1))
      have hdocs : sortDocs ((orderedChildren lc c₁).filter
            (fun e => isDocNode e.2)) =
          sortDocs ((orderedChildren lc c₂).filter (fun e => isDocNode e.2)) := by
        apply eq_of_perm_of_sorted_mem
        · exact (sortDocs_perm _).trans
            ((hperm.filter _).trans (sortDocs_perm _).symm)
        · exact sortDocs_sorted _
        · exact sortDocs_sorted _
        · intro x hx y hy hr hrs
          obtain ⟨kx, dx, hxe, hxm⟩ := mem_docPart hx
          obtain ⟨ky, dy, hye, hym⟩ := mem_docPart hy
          have hie : dx.index = dy.index := by
            rw [hxe, hye] at hr hrs
            have h1 : dx.index ≤ dy.index := hr
            have h2 : dy.index ≤ dx.index := hrs
            omega
          obtain ⟨hk, hd⟩ := hpairs kx dx ky dy hxm hym hie
          rw [hxe, hye, hk, hd]
      have hfolders : sortFolders lc ((orderedChildren lc c₁).filter
            (fun e => !isDocNode e.2)) =
          sortFolders lc ((orderedChildren lc c₂).filter
            (fun e => !isDocNode e.2)) := by
        haveI := folderRel_isTotal lc htot
        haveI := folderRel_isTrans lc htr
        apply eq_of_perm_of_sorted_mem
        · exact (List.perm_insertionSort _ _).trans
            ((hperm.filter _).trans (List.perm_insertionSort _ _).symm)
        · exact List.sorted_insertionSort _ _
        · exact List.sorted_insertionSort _ _
        · intro x hx y hy hr hrs
          have hx' := mem_folderPart hx
          have hy' := mem_folderPart hy
          have hkeq : x.1 = y.1 := folderRel_key_eq hanti hr hrs
          obtain ⟨kx, vx⟩ := x
          obtain ⟨ky, vy⟩ := y
          cases hkeq
          have hndo : ((orderedChildren lc c₁).map Prod.fst).Nodup := by
            rw [orderedChildren_keys]
            exact hnd₁
          have hvv : vx = vy := entry_eq_of_nodup hndo hx' hy'
          rw [hvv]
      rw [show orderedNode lc (.folder c₁) =
        .folder (orderEntries lc (orderedChildren lc c₁)) from rfl]
      rw [show orderedNode lc (.folder c₂) =
        .folder (orderEntries lc (orderedChildren lc c₂)) from rfl]
      unfold orderEntries
      rw [hdocs, hfolders]

theorem lcCompare_swap : ∀ a b : Str, lcCompare b a = -lcCompare a b := by
  intro a
  induction a with
  | nil => intro b; cases b <;> simp [lcCompare]
  | cons x xs ih =>
      intro b
      cases b with
      | nil => simp [lcCompare]
      | cons y ys =>
          by_cases h1 : x < y
          · have h2 : ¬ y < x := lt_asymm h1
            simp [lcCompare, h1, h2]
          · by_cases h2 : y < x
            · simp [lcCompare, h1, h2]
            · simp [lcCompare, h1, h2, ih ys]

theorem lcCompare_eq_zero : ∀ {a b : Str}, lcCompare a b = 0 → a = b := by
  intro a
  induction a with
  | nil =>
      intro b h
      cases b with
      | nil => rfl
      | cons y ys =>
          rw [show lcCompare [] (y :: ys) = -1 from rfl] at h
          omega
  | cons x xs ih =>
      intro b h
      cases b with
      | nil =>
          rw [show lcCompare (x :: xs) [] = 1 from rfl] at h
          omega
      | cons y ys =>
          by_cases h1 : x < y
          · rw [show lcCompare (x :: xs) (y :: ys) = -1 from by
              simp [lcCompare, h1]] at h
            omega
          · by_cases h2 : y < x
            · rw [show lcCompare (x :: xs) (y :: ys) = 1 from by
                simp [lcCompare, h1, h2]] at h
              omega
            · have hxy : x = y := le_antisymm (not_lt.mp h2) (not_lt.mp h1)
              subst hxy
              rw [show lcCompare (x :: xs) (x :: ys) = lcCompare xs ys from by
                simp [lcCompare]] at h
              rw [ih h]

theorem lcCompare_trans : ∀ a b c : Str,
    lcCompare a b ≤ 0 → lcCompare b c ≤ 0 → lcCompare a c ≤ 0 := by
  intro a
  induction a with
  | nil =>
      intro b c _ _
      cases c with
      | nil => rw [show lcCompare [] [] = 0 from rfl]
      | cons z zs => rw [show lcCompare [] (z :: zs) = -1 from rfl]; omega
  | cons x xs ih =>
      intro b c hab hbc
      cases b with
      | nil => rw [show lcCompare (x :: xs) [] = 1 from rfl] at hab; omega
      | cons y ys =>
          cases c with
          | nil => rw [show lcCompare (y :: ys) [] = 1 from rfl] at hbc; omega
          | cons z zs =>
              by_cases hxy : x < y
              · by_cases hyz : y < z
                · have hxz : x < z := lt_trans hxy hyz
                  rw [show lcCompare (x :: xs) (z :: zs) = -1 from by
                    simp [lcCompare, hxz]]
                  omega
                · by_cases hzy : z < y
                  · rw [show lcCompare (y :: ys) (z :: zs) = 1 from by
                      simp [lcCompare, hyz, hzy]] at hbc
                    omega
                  · have hyzeq : y = z := le_antisymm (not_lt.mp hzy) (not_lt.mp hyz)
                    subst hyzeq
                    rw [show lcCompare (x :: xs) (y :: zs) = -1 from by
                      simp [lcCompare, hxy]]
                    omega
              · by_cases hyx : y < x
                · rw [show lcCompare (x :: xs) (y :: ys) = 1 from by
                    simp [lcCompare, hxy, hyx]] at hab
                  omega
                · have hxyeq : x = y := le_antisymm (not_lt.mp hyx) (not_lt.mp hxy)
                  subst hxyeq
                  rw [show lcCompare (x :: xs) (x :: ys) = lcCompare xs ys from by
                    simp [lcCompare]] at hab
                  by_cases hxz : x < z
                  · rw [show lcCompare (x :: xs) (z :: zs) = -1 from by
                      simp [lcCompare, hxz]]
                    omega
                  · by_cases hzx : z < x
                    · rw [show lcCompare (x :: ys) (z :: zs) = 1 from by
                        simp [lcCompare, hxz, hzx]] at hbc
                      omega
                    · have hxzeq : x = z := le_antisymm (not_lt.mp hzx) (not_lt.mp hxz)
                      subst hxzeq
                      rw [show lcCompare (x :: ys) (x :: zs) = lcCompare ys zs from by
                        simp [lcCompare]] at hbc
                      rw [show lcCompare (x :: xs) (x :: zs) = lcCompare xs zs from by
                        simp [lcCompare]]
                      exact ih ys zs hab hbc

theorem lcCompare_total : ∀ a b : Str, lcCompare a b ≤ 0 ∨ lcCompare b a ≤ 0 := by
  intro a b
  rw [lcCompare_swap a b]
  omega

theorem lcCompare_antisymm : ∀ a b : Str,
    lcCompare a b ≤ 0 → lcCompare b a ≤ 0 → a = b := by
  intro a b h1 h2
  rw [lcCompare_swap a b] at h2
  exact lcCompare_eq_zero (by omega)

/-- C5. Counterexample to determinism under reordering: the two orders of
a catalog with two equal-index documents are permutations of each other,
yet the built trees differ even after the rendering order is applied at
every level, because the leaf sort is stable by index alone and therefore
preserves the differing insertion orders. -/
theorem c5_determinism_counterexample :
    tieCatalogA.Perm tieCatalogB ∧
      orderedNode lcCompare (.folder (buildTree tieCatalogA).children) ≠
        orderedNode lcCompare (.folder (buildTree tieCatalogB).children) := by
  decide

/-- C5. Determinism / order-independence, amended: building the tree from
any two permutations of a catalog yields identical trees once the
rendering order is applied at every level, provided the catalog's slugs
are distinct, no two documents sharing a parent path share an index value,
and the locale comparison is a total order on names; by the tied-index
counterexample above, the extra hypotheses are necessary. -/
theorem c5_determinism_amended (lc : Str → Str → Int)
    (htot : ∀ a b : Str, lc a b ≤ 0 ∨ lc b a ≤ 0)
    (htr : ∀ a b c : Str, lc a b ≤ 0 → lc b c ≤ 0 → lc a c ≤ 0)
    (hanti : ∀ a b : Str, lc a b ≤ 0 → lc b a ≤ 0 → a = b)
    (C C' : List Doc) (hp : C.Perm C')
    (hnd : (C.map Doc.slug).Nodup)
    (hidx : ∀ d₁ ∈ C, ∀ d₂ ∈ C,
      (splitSlash d₁.slug).dropLast = (splitSlash d₂.slug).dropLast →
      d₁.index = d₂.index → d₁ = d₂) :
    orderedNode lc (.folder (buildTree C).children) =
      orderedNode lc (.folder (buildTree C').children) := by
  have h1 : (buildTree C).children = foldChildren C [] :=
    buildTree_children_eq C ⟨[], [], []⟩
  have h2 : (buildTree C').children = foldChildren C' [] :=
    buildTree_children_eq C' ⟨[], [], []⟩
  rw [h1, h2]
  have hequiv : EquivC (foldChildren C []) (foldChildren C' []) :=
    foldChildren_perm hp hnd [] [] (equivT_refl nodupDeepC_nil)
  have hprov : ProvOK C [] (foldChildren C []) :=
    provOK_foldChildren C C [] (fun x hx => hx) (provOK_nil C [])
  have hI : IdxOK (.folder (foldChildren C [])) := idxOK_of_provOK hidx hprov
  exact ordered_eq_of_equiv lc htot htr hanti hequiv hI

theorem c5_determinism_amended_witness :
    orderedNode lcCompare (.folder (buildTree demoCatalog).children) =
      orderedNode lcCompare (.folder (buildTree demoCatalog.reverse).children) :=
  c5_determinism_amended lcCompare lcCompare_total lcCompare_trans
    lcCompare_antisymm demoCatalog demoCatalog.reverse
    (List.reverse_perm demoCatalog).symm (by decide) (by decide)
